import Mathlib

/-
  Verification of the shift-scheduling system (data service + scheduling service).

  Shallow embedding conventions used throughout this file:
  * UUIDs are modelled as natural numbers (only identity and ordering matter).
  * chrono NaiveDate is modelled as an integer day number whose epoch (day 0)
    is a Monday, so weekday().num_days_from_monday() becomes emod 7.  The
    pred_opt / succ_opt / checked_add_signed calendar-boundary failures cannot
    occur in the integer model (they only fire at the extreme ends of the
    chrono date range), so those operations are total here.
  * HashMap<Uuid, HashMap<NaiveDate, ShiftType>> is modelled as an association
    list keyed by (staff, date); insertion overwrites the key exactly as the
    nested HashMap insert does.
  * Fallible repository code returns Except; database rows are lists passed
    as explicit state.  SQL NOW() timestamps are passed in as parameters.
-/

/-- Shift type enum from shared types.rs (MORNING, EVENING, DAY_OFF). -/
inductive Shift where
  | morning
  | evening
  | dayOff
deriving DecidableEq

/-- Job status enum from shared types.rs (PENDING, PROCESSING, COMPLETED, FAILED). -/
inductive JobStatus where
  | pending
  | processing
  | completed
  | failed
deriving DecidableEq

/-- Domain error taxonomy from shared error.rs (only the variants the verified
    components construct). -/
inductive DomainError where
  | invalidInput : String → DomainError
  | databaseError : String → DomainError
  | notFound : String → DomainError
  | externalServiceError : String → DomainError
deriving DecidableEq

/-- Weekday index counted from Monday, 0..6.  Dates are integer day numbers
    with day 0 a Monday, so this is the integer remainder modulo 7; it models
    date.weekday().num_days_from_monday() in chrono. -/
def weekdayFromMonday (d : Int) : Int :=
  d % 7

/-- The partial schedule map staff_id -> (date -> shift), modelled as an
    association list keyed by (staff, date). -/
abbrev Sched := List (Nat × Int × Shift)

/-- Map lookup: assignments.get(staff).and_then(get(date)). -/
def schedGet (s : Sched) (st : Nat) (d : Int) : Option Shift :=
  (s.find? (fun e => e.1 == st && e.2.1 == d)).map (fun e => e.2.2)

/-- Map insert: assignments.entry(staff).or_default().insert(date, shift);
    overwrites any previous binding of the key. -/
def schedInsert (s : Sched) (st : Nat) (d : Int) (sh : Shift) : Sched :=
  (st, d, sh) :: s.filter (fun e => !(e.1 == st && e.2.1 == d))

/-- AssignmentContext from rules/mod.rs: the partial schedule plus the
    candidate (staff, date, shift) triple under evaluation. -/
structure AssignmentContext where
  assignments : Sched
  staffId : Nat
  date : Int
  shift : Shift

/-- NoMorningAfterEveningRule::get_previous_shift. -/
def get_previous_shift (ctx : AssignmentContext) : Option Shift :=
  schedGet ctx.assignments ctx.staffId (ctx.date - 1)

/-- NoMorningAfterEveningRule::get_next_shift. -/
def get_next_shift (ctx : AssignmentContext) : Option Shift :=
  schedGet ctx.assignments ctx.staffId (ctx.date + 1)

/-- NoMorningAfterEveningRule::validate; true models Ok(()), false models the
    rejection Err. -/
def no_morning_after_evening_validate (ctx : AssignmentContext) : Bool :=
  (if ctx.shift = Shift.morning then
    match get_previous_shift ctx with
    | some Shift.evening => false
    | _ => true
  else true)
  &&
  (if ctx.shift = Shift.evening then
    match get_next_shift ctx with
    | some Shift.morning => false
    | _ => true
  else true)

/-- MinDaysOffRule::get_week_start (same body in MaxDaysOffRule): the Monday
    of the week containing the date. -/
def get_week_start (d : Int) : Int :=
  d - weekdayFromMonday d

/-- MinDaysOffRule::count_days_off_in_week (same body in MaxDaysOffRule):
    DAY_OFF count for the staff over the seven days from week_start. -/
def count_days_off_in_week (s : Sched) (st : Nat) (weekStart : Int) : Nat :=
  (List.range 7).countP (fun (k : Nat) => schedGet s st (weekStart + (k : Int)) == some Shift.dayOff)

/-- MinDaysOffRule::count_remaining_days_in_week: days of the week strictly
    after the given date ((week_end - date).num_days().max(0) as usize). -/
def count_remaining_days_in_week (d : Int) (weekStart : Int) : Nat :=
  let weekEnd := weekStart + 6
  if d > weekEnd then 0 else (weekEnd - d).toNat

/-- MinDaysOffRule::validate. -/
def min_days_off_validate (minDaysOff : Nat) (ctx : AssignmentContext) : Bool :=
  if ctx.shift = Shift.dayOff then true
  else
    let ws := get_week_start ctx.date
    let currentDaysOff := count_days_off_in_week ctx.assignments ctx.staffId ws
    let remainingDays := count_remaining_days_in_week ctx.date ws
    !(decide (currentDaysOff + remainingDays < minDaysOff))

/-- MaxDaysOffRule::validate. -/
def max_days_off_validate (maxDaysOff : Nat) (ctx : AssignmentContext) : Bool :=
  if ctx.shift ≠ Shift.dayOff then true
  else
    let ws := get_week_start ctx.date
    let currentDaysOff := count_days_off_in_week ctx.assignments ctx.staffId ws
    !(decide (currentDaysOff + 1 > maxDaysOff))

/-- ShiftBalanceRule::count_shifts_on_date, specialised to one shift kind:
    the number of staff entries carrying the given shift on the date.  The
    Rust iterates assignments.values(); on the association-list model (whose
    reachable states have one entry per (staff, date) key) this is the count
    of entries matching (date, shift). -/
def count_shifts_on_date (s : Sched) (d : Int) (sh : Shift) : Nat :=
  s.countP (fun e => e.2.1 == d && e.2.2 == sh)

/-- ShiftBalanceRule::validate. -/
def shift_balance_validate (maxDiff : Nat) (ctx : AssignmentContext) : Bool :=
  if ctx.shift = Shift.dayOff then true
  else
    let m0 := count_shifts_on_date ctx.assignments ctx.date Shift.morning
    let e0 := count_shifts_on_date ctx.assignments ctx.date Shift.evening
    let m := if ctx.shift = Shift.morning then m0 + 1 else m0
    let e := if ctx.shift = Shift.evening then e0 + 1 else e0
    let diff := if m ≥ e then m - e else e - m
    !(decide (diff > maxDiff))

/-- A rule object: one of the four Rule implementations, with its config. -/
inductive RuleSpec where
  | noMorningAfterEvening
  | minDaysOff (k : Nat)
  | maxDaysOff (k : Nat)
  | shiftBalance (delta : Nat)
deriving DecidableEq

/-- Rule::validate dispatch. -/
def RuleSpec.validate : RuleSpec → AssignmentContext → Bool
  | RuleSpec.noMorningAfterEvening, ctx => no_morning_after_evening_validate ctx
  | RuleSpec.minDaysOff k, ctx => min_days_off_validate k ctx
  | RuleSpec.maxDaysOff k, ctx => max_days_off_validate k ctx
  | RuleSpec.shiftBalance d, ctx => shift_balance_validate d ctx

/-- The rule vector built in scheduling-service main.rs, in declaration
    order, with the three configured parameters. -/
def defaultRules (minK maxK delta : Nat) : List RuleSpec :=
  [RuleSpec.noMorningAfterEvening, RuleSpec.minDaysOff minK,
   RuleSpec.maxDaysOff maxK, RuleSpec.shiftBalance delta]

/-- ScheduleGenerator::validate_assignment: all rules accept (the first
    rejection short-circuits, which agrees with List.all). -/
def validate_assignment (rules : List RuleSpec) (ctx : AssignmentContext) : Bool :=
  rules.all (fun r => r.validate ctx)

/-- Loop body of ScheduleGenerator::assign_shift_type.  The Rust walks the
    unassigned vector with an index, removing each staff it assigns (which
    preserves the order of the rest) and stopping once target_count
    assignments were placed or the vector is exhausted; kept accumulates the
    staff the index has moved past, remaining is target_count minus the
    assignments placed so far. -/
def assign_shift_type_go (rules : List RuleSpec) (date : Int) (shift : Shift) :
    Sched → List Nat → List Nat → Nat → Sched × List Nat
  | sched, kept, [], _ => (sched, kept)
  | sched, kept, pending, 0 => (sched, kept ++ pending)
  | sched, kept, st :: rest, remaining + 1 =>
    if validate_assignment rules ⟨sched, st, date, shift⟩ then
      assign_shift_type_go rules date shift (schedInsert sched st date shift) kept rest remaining
    else
      assign_shift_type_go rules date shift sched (kept ++ [st]) rest (remaining + 1)

/-- ScheduleGenerator::assign_shift_type: returns the updated schedule and
    the unassigned staff left over, in order. -/
def assign_shift_type (rules : List RuleSpec) (sched : Sched) (unassigned : List Nat)
    (date : Int) (shift : Shift) (targetCount : Nat) : Sched × List Nat :=
  assign_shift_type_go rules date shift sched [] unassigned targetCount

/-- Alternative loop inside ScheduleGenerator::try_assign: first alternative
    that validates is inserted. -/
def try_alternatives (rules : List RuleSpec) (sched : Sched) (st : Nat) (d : Int) :
    List Shift → Option Sched
  | [] => none
  | a :: rest =>
    if validate_assignment rules ⟨sched, st, d, a⟩ then some (schedInsert sched st d a)
    else try_alternatives rules sched st d rest

/-- The alternative shifts try_assign falls back to for a preferred shift. -/
def fallback_alternatives : Shift → List Shift
  | Shift.dayOff => [Shift.morning, Shift.evening]
  | _ => [Shift.dayOff]

/-- ScheduleGenerator::try_assign: preferred shift, then alternatives, then
    the last-resort fallback that records the preferred shift anyway. -/
def try_assign (rules : List RuleSpec) (sched : Sched) (st : Nat) (d : Int)
    (preferred : Shift) : Sched :=
  if validate_assignment rules ⟨sched, st, d, preferred⟩ then
    schedInsert sched st d preferred
  else
    match try_alternatives rules sched st d (fallback_alternatives preferred) with
    | some s2 => s2
    | none => schedInsert sched st d preferred

/-- ScheduleGenerator::assign_shifts_for_day: filter the staff still without
    an assignment on the date, compute the morning and evening targets, run
    the two greedy passes, then give every remaining staff a day off through
    try_assign. -/
def assign_shifts_for_day (rules : List RuleSpec) (sched : Sched) (staffIds : List Nat)
    (date : Int) : Sched :=
  let unassigned := staffIds.filter (fun st => (schedGet sched st date).isNone)
  let targetMorning := unassigned.length / 3
  let targetEvening := (unassigned.length - targetMorning) / 2
  let p1 := assign_shift_type rules sched unassigned date Shift.morning targetMorning
  let p2 := assign_shift_type rules p1.1 p1.2 date Shift.evening targetEvening
  p2.2.foldl (fun sc st => try_assign rules sc st date Shift.dayOff) p2.1

/-- One output row of the generator (ShiftAssignment without the freshly
    generated row UUID and the created_at wall-clock timestamp, which are
    nondeterministic and irrelevant to every claim). -/
structure OutRow where
  scheduleJobId : Nat
  staffId : Nat
  date : Int
  shift : Shift
deriving DecidableEq

/-- Sort key of the final result.sort_by_key(|a| (a.date, a.staff_id)). -/
def outLE (a b : OutRow) : Bool :=
  decide (a.date < b.date ∨ (a.date = b.date ∧ a.staffId ≤ b.staffId))

/-- The 28-iteration day loop of generate_schedule, generalised over the
    number of days for induction. -/
def runDays (rules : List RuleSpec) (staffIds : List Nat) (startDate : Int)
    (n : Nat) : Sched :=
  (List.range n).foldl
    (fun sc (k : Nat) => assign_shifts_for_day rules sc staffIds (startDate + (k : Int))) []

/-- ScheduleGenerator::generate_schedule: Monday and non-emptiness
    preconditions, the 28-day loop, then the flattening of the map into rows
    sorted by (date, staff_id).  The HashMap iteration order in the Rust
    flattening step is unspecified, but since each (staff, date) key occurs
    once the sorted output is independent of it. -/
def generate_schedule (rules : List RuleSpec) (staffIds : List Nat) (startDate : Int)
    (jobId : Nat) : Except DomainError (List OutRow) :=
  if weekdayFromMonday startDate ≠ 0 then
    Except.error (DomainError.invalidInput "Schedule must start on a Monday")
  else if staffIds.isEmpty then
    Except.error (DomainError.invalidInput "At least one staff member is required")
  else
    let sched := runDays rules staffIds startDate 28
    Except.ok ((sched.map (fun e => OutRow.mk jobId e.1 e.2.1 e.2.2)).mergeSort outLE)

/-- A schedule_jobs table row (PostgresScheduleJobRepository).  Timestamps
    are abstract ticks supplied by the caller in place of SQL NOW(). -/
structure JobRow where
  id : Nat
  staffGroupId : Nat
  periodBeginDate : Int
  status : JobStatus
  errorMessage : Option String
  createdAt : Nat
  updatedAt : Nat
  completedAt : Option Nat
deriving DecidableEq

/-- PostgresScheduleJobRepository::update_status: an unconditional SQL UPDATE
    of status, error_message and updated_at on the rows matching the id.  The
    statement carries no WHERE clause on the current status and performs no
    legality check; it succeeds even when zero rows match.  execFail says
    whether the database fails the statement itself (connection failure, the
    map_err DatabaseError path); on a healthy database the update always
    succeeds. -/
def update_status (execFail : Bool) (db : List JobRow) (id : Nat) (status : JobStatus)
    (errorMessage : Option String) (now : Nat) : Except DomainError (List JobRow) :=
  if execFail then Except.error (DomainError.databaseError "connection failure")
  else Except.ok (db.map (fun r =>
    if r.id == id then
      { r with status := status, errorMessage := errorMessage, updatedAt := now }
    else r))

/-- PostgresScheduleJobRepository::mark_completed: unconditional UPDATE to
    COMPLETED setting completed_at and updated_at to NOW(); no guard on the
    current status. -/
def mark_completed (execFail : Bool) (db : List JobRow) (id : Nat) (now : Nat) :
    Except DomainError (List JobRow) :=
  if execFail then Except.error (DomainError.databaseError "connection failure")
  else Except.ok (db.map (fun r =>
    if r.id == id then
      { r with status := JobStatus.completed, completedAt := some now, updatedAt := now }
    else r))

/-- PostgresScheduleJobRepository::mark_failed: unconditional UPDATE to
    FAILED setting error_message and updated_at; no guard on the current
    status. -/
def mark_failed (execFail : Bool) (db : List JobRow) (id : Nat) (errorMessage : String)
    (now : Nat) : Except DomainError (List JobRow) :=
  if execFail then Except.error (DomainError.databaseError "connection failure")
  else Except.ok (db.map (fun r =>
    if r.id == id then
      { r with status := JobStatus.failed, errorMessage := some errorMessage, updatedAt := now }
    else r))

/-- PostgresShiftAssignmentRepository::create_batch splits the input into
    chunks of this size. -/
def batchSize : Nat := 1000

/-- The chunks(BATCH_SIZE) iterator over the assignment list. -/
def chunksOf (l : List OutRow) : List (List OutRow) :=
  match l with
  | [] => []
  | a :: rest => (a :: rest.take (batchSize - 1)) :: chunksOf (rest.drop (batchSize - 1))
termination_by l.length
decreasing_by
  simp only [List.length_drop, List.length_cons]
  omega

/-- Per-chunk INSERT loop of create_batch.  Each chunk is one SQL INSERT
    statement executed on its own (no surrounding transaction); execFail says
    whether the database fails the statement for the chunk at that index (a
    single INSERT statement is itself atomic).  Returns the result together
    with the persisted table state. -/
def insert_chunks (execFail : Nat → Bool) :
    Nat → List OutRow → List (List OutRow) → Except DomainError Unit × List OutRow
  | _, db, [] => (Except.ok (), db)
  | k, db, c :: rest =>
    if execFail k then (Except.error (DomainError.databaseError "insert failed"), db)
    else insert_chunks execFail (k + 1) (db ++ c) rest

/-- PostgresShiftAssignmentRepository::create_batch: empty input returns Ok
    immediately; otherwise the chunks are inserted one statement at a time. -/
def create_batch (execFail : Nat → Bool) (db : List OutRow) (assignments : List OutRow) :
    Except DomainError Unit × List OutRow :=
  if assignments.isEmpty then (Except.ok (), db)
  else insert_chunks execFail 0 db (chunksOf assignments)

/-- A group_memberships table row. -/
structure MemRow where
  id : Nat
  staffId : Nat
  groupId : Nat
deriving DecidableEq

/-- PostgresMembershipRepository::add_member: INSERT .. ON CONFLICT
    (staff_id, group_id) DO NOTHING RETURNING .., run through sqlx fetch_one.
    When the pair already exists the statement inserts nothing and RETURNING
    produces zero rows, so fetch_one fails with RowNotFound, surfaced as
    DomainError::DatabaseError; otherwise the fresh row (with the
    database-generated id, passed in as newId) is inserted and returned.
    Returns the result together with the table state. -/
def add_member (db : List MemRow) (staffId groupId newId : Nat) :
    Except DomainError MemRow × List MemRow :=
  if db.any (fun m => m.staffId == staffId && m.groupId == groupId) then
    (Except.error (DomainError.databaseError "no rows returned by a query that expected to return at least one row"), db)
  else
    (Except.ok ⟨newId, staffId, groupId⟩, db ++ [⟨newId, staffId, groupId⟩])

/-- StaffResponse as deserialised by the scheduling-service data-service
    client (http_client.rs); only the id takes part in the verified claims,
    the remaining fields (name, email, position, status, timestamps) are
    carried opaquely as the payload. -/
structure StaffResponse where
  id : Nat
  payload : String
deriving DecidableEq

/-- ResolvedGroupResponse from http_client.rs. -/
structure ResolvedGroupResponse where
  groupId : Nat
  groupName : String
  members : List StaffResponse
deriving DecidableEq

/-- DataServiceClient::get_group_members, success path: flat_map of the
    members of every returned group, in response order. -/
def get_group_members (data : List ResolvedGroupResponse) : List StaffResponse :=
  data.flatMap (fun g => g.members)

/-- JobProcessor::execute_scheduling projects the fetched staff members to
    their ids before calling the generator. -/
def staff_ids_for_scheduling (data : List ResolvedGroupResponse) : List Nat :=
  (get_group_members data).map (fun s => s.id)

/-- A dispatch message as enqueued by the submit handler. -/
structure ScheduleJobMsg where
  jobId : Nat
  staffGroupId : Nat
  periodBeginDate : Int
deriving DecidableEq

/-- Result of the submit_schedule HTTP handler: status code, job table
    state, and queue state. -/
structure SubmitOutcome where
  httpStatus : Nat
  db : List JobRow
  queue : List ScheduleJobMsg
deriving DecidableEq

/-- The submit_schedule handler (schedule_handlers.rs), success path of the
    store and queue: the Monday check runs before anything is persisted; a
    non-Monday period_begin_date returns 400 BAD_REQUEST with the job table
    and the queue untouched, otherwise the PENDING job row is inserted and
    the dispatch message enqueued, returning 202 ACCEPTED. -/
def submit_schedule (db : List JobRow) (queue : List ScheduleJobMsg)
    (staffGroupId : Nat) (periodBeginDate : Int) (newJobId : Nat) (now : Nat) :
    SubmitOutcome :=
  if weekdayFromMonday periodBeginDate ≠ 0 then
    ⟨400, db, queue⟩
  else
    let job : JobRow :=
      ⟨newJobId, staffGroupId, periodBeginDate, JobStatus.pending, none, now, now, none⟩
    ⟨202, db ++ [job], queue ++ [⟨newJobId, staffGroupId, periodBeginDate⟩]⟩

/-- A staff_groups table row. -/
structure GroupRow where
  id : Nat
  name : String
  parentId : Option Nat
deriving DecidableEq

/-- A staff table row; active models status = ACTIVE. -/
structure StaffRow where
  id : Nat
  name : String
  active : Bool
deriving DecidableEq

/-- The data-service database state used by the resolved-members query. -/
structure DataDb where
  groups : List GroupRow
  staff : List StaffRow
  memberships : List MemRow
deriving DecidableEq

/-- Whether the parent_id of the group row is one of the ids in s. -/
def parentInSet (g : GroupRow) (s : List Nat) : Bool :=
  match g.parentId with
  | some p => decide (p ∈ s)
  | none => false

/-- One round of the recursive CTE in get_resolved_members: the ids of
    groups whose parent is already in the set and that are not yet in it
    (UNION discards duplicates). -/
def cteNew (groups : List GroupRow) (s : List Nat) : List Nat :=
  ((groups.filter (fun g => parentInSet g s && decide (g.id ∉ s))).map (fun g => g.id)).dedup

/-- Iteration of the recursive CTE to its fixpoint; WITH RECURSIVE stops as
    soon as a round contributes no new row, and fuel rounds are enough for
    any database with that many group rows. -/
def cteIter (groups : List GroupRow) : Nat → List Nat → List Nat
  | 0, s => s
  | fuel + 1, s =>
    let news := cteNew groups s
    if news = [] then s else cteIter groups fuel (s ++ news)

/-- The descendants CTE of PostgresGroupRepository::get_resolved_members:
    the ids reachable from the anchor row (the group whose id is the bound
    parameter) by following parent_id edges downwards. -/
def descendants_cte (db : DataDb) (rootId : Nat) : List Nat :=
  cteIter db.groups db.groups.length
    (((db.groups.filter (fun g => g.id == rootId)).map (fun g => g.id)).dedup)

/-- One row of the SELECT in get_resolved_members (group columns joined with
    staff columns). -/
structure ResolvedRow where
  group : GroupRow
  staff : StaffRow
deriving DecidableEq

/-- ORDER BY sg.name, s.name. -/
def resolvedRowLE (a b : ResolvedRow) : Bool :=
  decide (a.group.name < b.group.name ∨
    (a.group.name = b.group.name ∧ a.staff.name ≤ b.staff.name))

/-- The three inner joins of get_resolved_members: descendants with
    staff_groups, group_memberships and staff, keeping ACTIVE staff only. -/
def joinRows (db : DataDb) (descIds : List Nat) : List ResolvedRow :=
  descIds.flatMap (fun d =>
    (db.groups.filter (fun sg => sg.id == d)).flatMap (fun sg =>
      (db.memberships.filter (fun gm => gm.groupId == sg.id)).flatMap (fun gm =>
        (db.staff.filter (fun s => s.id == gm.staffId && s.active)).map
          (fun s => ResolvedRow.mk sg s))))

/-- Vec::dedup on the sorted id vector: removes consecutive duplicates. -/
def dedupAdjacent : List Nat → List Nat
  | [] => []
  | [a] => [a]
  | a :: b :: rest =>
    if a == b then dedupAdjacent (b :: rest) else a :: dedupAdjacent (b :: rest)

/-- The unique_count block of get_resolved_members: collect the staff ids of
    all result rows, sort, dedup, take the length. -/
def unique_count (rows : List ResolvedRow) : Nat :=
  (dedupAdjacent ((rows.map (fun r => r.staff.id)).mergeSort (fun a b => decide (a ≤ b)))).length

/-- The derived aggregate returned per group. -/
structure GroupWithMembers where
  group : GroupRow
  members : List StaffRow
deriving DecidableEq

/-- The streaming grouping pass of get_resolved_members.  The Rust keeps a
    result vector and pushes each row either onto the members of the last
    entry (when the group id repeats) or as a fresh entry; here the last
    entry of that vector is carried as the accumulator cur. -/
def buildGroupsGo (cur : GroupWithMembers) : List ResolvedRow → List GroupWithMembers
  | [] => [cur]
  | row :: rest =>
    if row.group.id == cur.group.id then
      buildGroupsGo { cur with members := cur.members ++ [row.staff] } rest
    else
      cur :: buildGroupsGo ⟨row.group, [row.staff]⟩ rest

/-- Entry point of the grouping pass (empty row set gives an empty result). -/
def buildGroups : List ResolvedRow → List GroupWithMembers
  | [] => []
  | row :: rest => buildGroupsGo ⟨row.group, [row.staff]⟩ rest

/-- PostgresGroupRepository::get_resolved_members: recursive CTE, joins,
    ORDER BY (group name, staff name), unique active count, grouping pass. -/
def get_resolved_members (db : DataDb) (rootId : Nat) : List GroupWithMembers × Nat :=
  let rows := (joinRows db (descendants_cte db rootId)).mergeSort resolvedRowLE
  (buildGroups rows, unique_count rows)


/-- Filtering with a predicate implied by the search predicate does not
    change the result of find?. -/
theorem find?_filter_of_imp {α : Type} (p q : α → Bool) (l : List α)
    (h : ∀ e, p e = true → q e = true) : (l.filter q).find? p = l.find? p := by
  induction l with
  | nil => rfl
  | cons a l ih =>
    simp only [List.filter_cons]
    by_cases hq : q a = true
    · simp only [hq, if_true, List.find?_cons]
      cases hp : p a <;> simp [hp, ih]
    · have hp : p a = false := by
        cases hpa : p a
        · rfl
        · exact absurd (h a hpa) hq
      simp only [Bool.not_eq_true] at hq
      simp only [hq, Bool.false_eq_true, if_false, List.find?_cons, hp, ih]

/-- Lookup after insert: the inserted key reads back the new shift, every
    other key is untouched (HashMap insert semantics). -/
theorem schedGet_insert (s : Sched) (st : Nat) (d : Int) (sh : Shift)
    (st2 : Nat) (d2 : Int) :
    schedGet (schedInsert s st d sh) st2 d2 =
      if st2 = st ∧ d2 = d then some sh else schedGet s st2 d2 := by
  by_cases h : st2 = st ∧ d2 = d
  · obtain ⟨h1, h2⟩ := h
    subst h1; subst h2
    simp [schedGet, schedInsert, List.find?_cons]
  · have hhead : ((st, d, sh).1 == st2 && (st, d, sh).2.1 == d2) = false := by
      simp only [Bool.and_eq_false_iff, beq_eq_false_iff_ne]
      by_cases h1 : st = st2
      · right; intro h2; exact h ⟨h1.symm, h2.symm⟩
      · left; exact h1
    simp only [schedGet, schedInsert, List.find?_cons, hhead, if_neg h]
    rw [find?_filter_of_imp]
    intro e he
    simp only [Bool.and_eq_true, beq_iff_eq] at he
    simp only [Bool.not_eq_true', Bool.and_eq_false_iff, beq_eq_false_iff_ne]
    by_cases h1 : e.1 = st
    · right; intro h2
      exact h ⟨he.1.symm.trans h1, he.2.symm.trans h2⟩
    · left; exact h1

/-- The keys of the association-list schedule. -/
def schedKeys (s : Sched) : List (Nat × Int) :=
  s.map (fun e => (e.1, e.2.1))

/-- Well-formedness of the map model: one entry per (staff, date) key.  It
    holds for every schedule the generator builds. -/
def SchedWF (s : Sched) : Prop :=
  (schedKeys s).Nodup

theorem schedWF_nil : SchedWF [] := by
  simp [SchedWF, schedKeys]

theorem schedWF_insert (s : Sched) (st : Nat) (d : Int) (sh : Shift)
    (hwf : SchedWF s) : SchedWF (schedInsert s st d sh) := by
  simp only [SchedWF, schedKeys, schedInsert, List.map_cons, List.nodup_cons]
  constructor
  · intro hmem
    simp only [List.mem_map] at hmem
    obtain ⟨e, he, hkey⟩ := hmem
    have := List.of_mem_filter he
    simp only [Bool.not_eq_true', Bool.and_eq_false_iff, beq_eq_false_iff_ne] at this
    cases this with
    | inl h1 => exact h1 (congrArg Prod.fst hkey)
    | inr h2 => exact h2 (congrArg Prod.snd hkey)
  · exact List.Nodup.sublist
      (List.Sublist.map _ (List.filter_sublist s)) hwf

theorem mem_of_schedGet {s : Sched} {st : Nat} {d : Int} {sh : Shift}
    (h : schedGet s st d = some sh) : (st, d, sh) ∈ s := by
  unfold schedGet at h
  cases hfind : s.find? (fun e => e.1 == st && e.2.1 == d) with
  | none => rw [hfind] at h; simp at h
  | some e =>
    rw [hfind] at h
    simp only [Option.map_some', Option.some.injEq] at h
    have hmem := List.mem_of_find?_eq_some hfind
    have hp := List.find?_some hfind
    simp only [Bool.and_eq_true, beq_iff_eq] at hp
    obtain ⟨e1, e2, e3⟩ := e
    obtain ⟨h1, h2⟩ := hp
    simp only at h1 h2 h
    subst h1; subst h2; subst h
    exact hmem

theorem schedGet_eq_some_of_mem {s : Sched} {st : Nat} {d : Int} {sh : Shift}
    (hwf : SchedWF s) (hmem : (st, d, sh) ∈ s) : schedGet s st d = some sh := by
  induction s with
  | nil => simp at hmem
  | cons a l ih =>
    simp only [SchedWF, schedKeys, List.map_cons, List.nodup_cons] at hwf
    rcases List.mem_cons.mp hmem with ha | hl
    · subst ha
      simp [schedGet, List.find?_cons]
    · have hkey : (a.1 == st && a.2.1 == d) = false := by
        by_contra hcontra
        rw [Bool.not_eq_false] at hcontra
        simp only [Bool.and_eq_true, beq_iff_eq] at hcontra
        apply hwf.1
        simp only [List.mem_map]
        exact ⟨(st, d, sh), hl, by simp [hcontra.1, hcontra.2]⟩
      have hrec := ih hwf.2 hl
      unfold schedGet at hrec ⊢
      rw [List.find?_cons, hkey]
      exact hrec

theorem schedGet_isSome_iff_mem_keys (s : Sched) (st : Nat) (d : Int) :
    (schedGet s st d).isSome ↔ (st, d) ∈ schedKeys s := by
  constructor
  · intro h
    obtain ⟨sh, hsh⟩ := Option.isSome_iff_exists.mp h
    exact List.mem_map.mpr ⟨(st, d, sh), mem_of_schedGet hsh, rfl⟩
  · intro h
    obtain ⟨e, he, hkey⟩ := List.mem_map.mp h
    have hfind : (s.find? (fun e2 => e2.1 == st && e2.2.1 == d)).isSome :=
      List.find?_isSome.mpr ⟨e, he, by
        simp only [Bool.and_eq_true, beq_iff_eq]
        exact ⟨congrArg Prod.fst hkey, congrArg Prod.snd hkey⟩⟩
    unfold schedGet
    obtain ⟨e2, he2⟩ := Option.isSome_iff_exists.mp hfind
    rw [he2]
    rfl

/-- Transition table stated by the spec: the only legal job status
    transitions. -/
def legalTransition (a b : JobStatus) : Prop :=
  (a = JobStatus.pending ∧ b = JobStatus.processing) ∨
  (a = JobStatus.processing ∧ b = JobStatus.completed) ∨
  (a = JobStatus.processing ∧ b = JobStatus.failed)

instance (a b : JobStatus) : Decidable (legalTransition a b) := by
  unfold legalTransition
  infer_instance

/-- A concrete PENDING job row used in the C2 theorems. -/
def pendingJobRow : JobRow :=
  ⟨7, 3, 0, JobStatus.pending, none, 0, 0, none⟩

/-- C2: the code evaluated at the claim's failing input.  PENDING to
    COMPLETED is not a permitted transition, yet on a healthy database both
    mark_completed and update_status on a PENDING job succeed and rewrite
    the row — the UPDATE statements carry no guard on the current status —
    where the claim requires the store to return an error and leave the row
    unchanged. -/
theorem C2_code_rewrites_pending_to_completed :
    ¬ legalTransition JobStatus.pending JobStatus.completed ∧
    mark_completed false [pendingJobRow] 7 5 =
      Except.ok [⟨7, 3, 0, JobStatus.completed, none, 0, 5, some 5⟩] ∧
    update_status false [pendingJobRow] 7 JobStatus.completed none 5 =
      Except.ok [⟨7, 3, 0, JobStatus.completed, none, 0, 5, none⟩] ∧
    (⟨7, 3, 0, JobStatus.completed, none, 0, 5, some 5⟩ : JobRow) ≠ pendingJobRow := by
  refine ⟨by decide, rfl, rfl, by decide⟩

/-- Actual behaviour of the job store: no transition validation at all.
    On a healthy database every update_status, mark_completed and
    mark_failed call succeeds whatever the current status is, rewriting the
    matching row (bumping updated_at to now, mark_completed also setting
    completed_at, mark_failed and update_status also setting error_message)
    and leaving every row with a different id unchanged. -/
theorem job_store_update_unconditional (db : List JobRow) (r : JobRow)
    (hr : r ∈ db) (st : JobStatus) (err : Option String) (msg : String) (now : Nat) :
    (∃ db2, update_status false db r.id st err now = Except.ok db2 ∧
       { r with status := st, errorMessage := err, updatedAt := now } ∈ db2 ∧
       ∀ r2 ∈ db, r2.id ≠ r.id → r2 ∈ db2) ∧
    (∃ db2, mark_completed false db r.id now = Except.ok db2 ∧
       { r with status := JobStatus.completed, completedAt := some now, updatedAt := now } ∈ db2 ∧
       ∀ r2 ∈ db, r2.id ≠ r.id → r2 ∈ db2) ∧
    (∃ db2, mark_failed false db r.id msg now = Except.ok db2 ∧
       { r with status := JobStatus.failed, errorMessage := some msg, updatedAt := now } ∈ db2 ∧
       ∀ r2 ∈ db, r2.id ≠ r.id → r2 ∈ db2) := by
  refine ⟨⟨_, rfl, ?_, ?_⟩, ⟨_, rfl, ?_, ?_⟩, ⟨_, rfl, ?_, ?_⟩⟩ <;>
    first
      | exact List.mem_map.mpr ⟨r, hr, by simp⟩
      | (intro r2 h2 hne
         exact List.mem_map.mpr ⟨r2, h2, by simp [hne]⟩)

/-- The unconditional-update behaviour at a concrete PENDING row. -/
theorem job_store_update_unconditional_witness :
    (∃ db2, update_status false [pendingJobRow] pendingJobRow.id JobStatus.completed none 5 =
        Except.ok db2 ∧
      { pendingJobRow with status := JobStatus.completed, errorMessage := none, updatedAt := 5 } ∈ db2 ∧
      ∀ r2 ∈ [pendingJobRow], r2.id ≠ pendingJobRow.id → r2 ∈ db2) ∧
    (∃ db2, mark_completed false [pendingJobRow] pendingJobRow.id 5 = Except.ok db2 ∧
      { pendingJobRow with status := JobStatus.completed, completedAt := some 5, updatedAt := 5 } ∈ db2 ∧
      ∀ r2 ∈ [pendingJobRow], r2.id ≠ pendingJobRow.id → r2 ∈ db2) ∧
    (∃ db2, mark_failed false [pendingJobRow] pendingJobRow.id "boom" 5 = Except.ok db2 ∧
      { pendingJobRow with status := JobStatus.failed, errorMessage := some "boom", updatedAt := 5 } ∈ db2 ∧
      ∀ r2 ∈ [pendingJobRow], r2.id ≠ pendingJobRow.id → r2 ∈ db2) :=
  job_store_update_unconditional [pendingJobRow] pendingJobRow
    (List.mem_singleton.mpr rfl) JobStatus.completed none "boom" 5

/-- C6: submitting a schedule whose period_begin_date is not a Monday
    returns HTTP 400 with the job table and the dispatch queue unchanged,
    and generate_schedule returns InvalidInput whenever start_date is not a
    Monday or staff_ids is empty. -/
theorem C6_non_monday_rejected_without_job_row (db : List JobRow)
    (queue : List ScheduleJobMsg) (gid pbd njid now : _) (rules : List RuleSpec)
    (staffIds : List Nat) (start : Int) (jobId : Nat)
    (hmon : weekdayFromMonday pbd ≠ 0)
    (hbad : weekdayFromMonday start ≠ 0 ∨ staffIds = []) :
    submit_schedule db queue gid pbd njid now = ⟨400, db, queue⟩ ∧
    ∃ msg, generate_schedule rules staffIds start jobId =
      Except.error (DomainError.invalidInput msg) := by
  constructor
  · unfold submit_schedule
    rw [if_pos hmon]
  · by_cases hm : weekdayFromMonday start ≠ 0
    · exact ⟨"Schedule must start on a Monday", by unfold generate_schedule; rw [if_pos hm]⟩
    · have hempty : staffIds = [] := by
        rcases hbad with h | h
        · exact absurd h hm
        · exact h
      refine ⟨"At least one staff member is required", ?_⟩
      unfold generate_schedule
      rw [if_neg hm, hempty]
      rfl

/-- Witness for C6 at the Tuesday date 1 and the empty staff list. -/
theorem C6_witness :
    submit_schedule [] [] 3 1 7 0 = ⟨400, [], []⟩ ∧
    ∃ msg, generate_schedule (defaultRules 1 3 1) [] 1 0 =
      Except.error (DomainError.invalidInput msg) :=
  C6_non_monday_rejected_without_job_row [] [] 3 1 7 0 (defaultRules 1 3 1) [] 1 0
    (by decide) (Or.inr rfl)

/-- A resolved-members response in which the same staff member belongs to
    two of the returned groups. -/
def dupMemberResponse : List ResolvedGroupResponse :=
  [⟨1, "A", [⟨7, "s"⟩]⟩, ⟨2, "B", [⟨7, "s"⟩]⟩]

/-- C7 counterexample: the client flattens the group member lists with a
    plain flat_map and the job processor projects ids directly, so a staff
    member of two subgroups reaches the generator twice; the flattened id
    list is not de-duplicated. -/
theorem C7_counterexample_duplicate_ids :
    staff_ids_for_scheduling dupMemberResponse = [7, 7] ∧
    ¬ (staff_ids_for_scheduling dupMemberResponse).Nodup := by
  exact ⟨rfl, by decide⟩

/-- C7 as amended: no de-duplication is performed anywhere between the
    data-service response and the generator input.  The id list handed to
    the generator preserves multiplicities exactly: every staff id appears
    once per group membership in the response, and the list length is the
    total member count over all returned groups. -/
theorem C7_amended_flatten_preserves_multiplicity (data : List ResolvedGroupResponse)
    (i : Nat) :
    (staff_ids_for_scheduling data).countP (fun x => x == i) =
      (data.map (fun g => g.members.countP (fun s => s.id == i))).sum ∧
    (staff_ids_for_scheduling data).length =
      (data.map (fun g => g.members.length)).sum := by
  constructor
  · unfold staff_ids_for_scheduling get_group_members
    rw [List.countP_map, List.countP_flatMap]
    rfl
  · unfold staff_ids_for_scheduling get_group_members
    rw [List.length_map]
    induction data with
    | nil => rfl
    | cons g rest ih =>
      simp only [List.flatMap_cons, List.length_append, List.map_cons, List.sum_cons, ih]

/-- C8 counterexample: the first add of the pair (1, 2) succeeds, and the
    second add of the same pair leaves the row count at one but returns a
    database error (ON CONFLICT DO NOTHING emits no row for RETURNING, so
    fetch_one fails) instead of succeeding with the existing row. -/
theorem C8_counterexample_readd_errors :
    (add_member [] 1 2 0).1 = Except.ok ⟨0, 1, 2⟩ ∧
    (add_member [] 1 2 0).2 = [⟨0, 1, 2⟩] ∧
    (add_member [⟨0, 1, 2⟩] 1 2 9).1 =
      Except.error (DomainError.databaseError
        "no rows returned by a query that expected to return at least one row") ∧
    (add_member [⟨0, 1, 2⟩] 1 2 9).2.countP
      (fun m => m.staffId == 1 && m.groupId == 2) = 1 := by
  refine ⟨rfl, rfl, rfl, rfl⟩

/-- C8 as amended: re-adding an existing (staff_id, group_id) pair never
    creates a second row — the table is left unchanged, so the row count for
    the pair stays at one — but the store call fails with a database error
    (RowNotFound from fetch_one) instead of returning the existing row; a
    first-time add succeeds, appends exactly one row and returns it. -/
theorem C8_amended_readd_keeps_one_row_but_errors (db : List MemRow) (s g nid : Nat) :
    ((∃ m ∈ db, m.staffId = s ∧ m.groupId = g) →
       (add_member db s g nid).1 = Except.error (DomainError.databaseError
         "no rows returned by a query that expected to return at least one row") ∧
       (add_member db s g nid).2 = db) ∧
    ((¬ ∃ m ∈ db, m.staffId = s ∧ m.groupId = g) →
       (add_member db s g nid).1 = Except.ok ⟨nid, s, g⟩ ∧
       (add_member db s g nid).2 = db ++ [⟨nid, s, g⟩]) ∧
    (db.countP (fun m => m.staffId == s && m.groupId == g) = 1 →
       (add_member db s g nid).2.countP (fun m => m.staffId == s && m.groupId == g) = 1) := by
  have hany : db.any (fun m => m.staffId == s && m.groupId == g) = true ↔
      ∃ m ∈ db, m.staffId = s ∧ m.groupId = g := by
    simp [List.any_eq_true]
  refine ⟨?_, ?_, ?_⟩
  · intro hex
    unfold add_member
    rw [if_pos (hany.mpr hex)]
    exact ⟨rfl, rfl⟩
  · intro hnex
    unfold add_member
    rw [if_neg (fun h => hnex (hany.mp h))]
    exact ⟨rfl, rfl⟩
  · intro hcount
    have hex : ∃ m ∈ db, m.staffId = s ∧ m.groupId = g := by
      have hpos : 0 < db.countP (fun m => m.staffId == s && m.groupId == g) := by omega
      obtain ⟨m, hm, hp⟩ := List.countP_pos_iff.mp hpos
      simp only [Bool.and_eq_true, beq_iff_eq] at hp
      exact ⟨m, hm, hp⟩
    unfold add_member
    rw [if_pos (hany.mpr hex)]
    exact hcount

/-- Witness for the amended C8 theorem on a one-row table. -/
theorem C8_amended_witness :
    (add_member [⟨0, 1, 2⟩] 1 2 9).1 = Except.error (DomainError.databaseError
      "no rows returned by a query that expected to return at least one row") ∧
    (add_member [⟨0, 1, 2⟩] 1 2 9).2 = [⟨0, 1, 2⟩] :=
  (C8_amended_readd_keeps_one_row_but_errors [⟨0, 1, 2⟩] 1 2 9).1
    ⟨⟨0, 1, 2⟩, List.mem_singleton.mpr rfl, rfl, rfl⟩

/-- Count, over the range of a week, of the days strictly after the given
    date (the spec reading of the days a staff could still take off). -/
def specDaysAfterInWeek (d : Int) : Nat :=
  (List.range 7).countP (fun (k : Nat) => decide (get_week_start d + (k : Int) > d))

/-- Modelled from the spec words of C9 for the refinement comparison: the
    days of the Monday-anchored week strictly after the candidate date that
    are still unassigned for the staff. -/
def specUnassignedAfterInWeek (s : Sched) (st : Nat) (d : Int) : Nat :=
  (List.range 7).countP (fun (k : Nat) =>
    decide (get_week_start d + (k : Int) > d) &&
      (schedGet s st (get_week_start d + (k : Int))).isNone)

/-- The context of the C9 counterexample: staff 0 already works a morning
    shift on every remaining day of the week (dates 1 to 6), and the
    candidate is a morning shift on Monday (date 0). -/
def ctx9 : AssignmentContext :=
  ⟨[(0, 1, Shift.morning), (0, 2, Shift.morning), (0, 3, Shift.morning),
    (0, 4, Shift.morning), (0, 5, Shift.morning), (0, 6, Shift.morning)],
   0, 0, Shift.morning⟩

/-- C9 counterexample: with min_days_off = 2, the staff has zero days off in
    the week and zero unassigned days after the candidate date, so the claim
    says the work-shift candidate is rejected; the code accepts it, because
    count_remaining_days_in_week counts every later day of the week whether
    or not it is already assigned. -/
theorem C9_counterexample_assigned_days_still_counted :
    min_days_off_validate 2 ctx9 = true ∧
    ctx9.shift ≠ Shift.dayOff ∧
    count_days_off_in_week ctx9.assignments ctx9.staffId (get_week_start ctx9.date) +
      specUnassignedAfterInWeek ctx9.assignments ctx9.staffId ctx9.date < 2 := by
  refine ⟨by decide, by decide, by decide⟩

theorem countP_range_lt_left (N m : Nat) :
    (List.range N).countP (fun k => decide (m < k)) = N - min N (m + 1) := by
  induction N with
  | zero => rfl
  | succ N ih =>
    rw [List.range_succ, List.countP_append, ih]
    by_cases h : m < N
    · rw [List.countP_cons, List.countP_nil, if_pos (by simpa using h)]
      omega
    · rw [List.countP_cons, List.countP_nil, if_neg (by simpa using h)]
      omega

/-- The remaining-days count of the code equals the number of week days
    strictly after the date, assignment status ignored. -/
theorem count_remaining_eq_specDaysAfter (d : Int) :
    count_remaining_days_in_week d (get_week_start d) = specDaysAfterInWeek d := by
  have h0 : 0 ≤ d % 7 := Int.emod_nonneg d (by decide)
  have h7 : d % 7 < 7 := Int.emod_lt_of_pos d (by decide)
  have hpred : ∀ k ∈ List.range 7,
      (decide (get_week_start d + (k : Int) > d)) = true ↔
        (decide ((d % 7).toNat < k)) = true := by
    intro k hk
    rw [decide_eq_true_iff, decide_eq_true_iff]
    unfold get_week_start weekdayFromMonday
    constructor
    · intro h
      omega
    · intro h
      omega
  unfold specDaysAfterInWeek
  rw [List.countP_congr hpred, countP_range_lt_left]
  show (if d > (d - weekdayFromMonday d) + 6 then 0
        else ((d - weekdayFromMonday d) + 6 - d).toNat) =
      7 - min 7 ((d % 7).toNat + 1)
  unfold weekdayFromMonday
  have hif : ¬ (d > d - d % 7 + 6) := by omega
  rw [if_neg hif]
  omega

/-- C9 as amended: MinDaysOffPerWeek(k) accepts every DAY_OFF candidate, and
    rejects a work-shift candidate exactly when the days off already
    recorded for the staff in the Monday-anchored week plus the number of
    week days strictly after the candidate date — counted whether or not
    they are already assigned — is strictly below k. -/
theorem C9_amended_remaining_days_ignore_assignments (k : Nat) (ctx : AssignmentContext) :
    (ctx.shift = Shift.dayOff → min_days_off_validate k ctx = true) ∧
    (ctx.shift ≠ Shift.dayOff →
      (min_days_off_validate k ctx = false ↔
        count_days_off_in_week ctx.assignments ctx.staffId (get_week_start ctx.date) +
          specDaysAfterInWeek ctx.date < k)) := by
  constructor
  · intro h
    unfold min_days_off_validate
    rw [if_pos h]
  · intro h
    unfold min_days_off_validate
    rw [if_neg h]
    show (!decide (count_days_off_in_week ctx.assignments ctx.staffId (get_week_start ctx.date) +
        count_remaining_days_in_week ctx.date (get_week_start ctx.date) < k)) = false ↔ _
    rw [count_remaining_eq_specDaysAfter]
    simp

/-- Witness for the amended C9 theorem at the counterexample context. -/
theorem C9_amended_witness :
    min_days_off_validate 2 ctx9 = false ↔
      count_days_off_in_week ctx9.assignments ctx9.staffId (get_week_start ctx9.date) +
        specDaysAfterInWeek ctx9.date < 2 :=
  (C9_amended_remaining_days_ignore_assignments 2 ctx9).2 (by decide)

theorem chunksOf_flatten (l : List OutRow) : (chunksOf l).flatten = l := by
  induction l using chunksOf.induct with
  | case1 => simp [chunksOf]
  | case2 a rest ih =>
    rw [chunksOf]
    simp only [List.flatten_cons, ih]
    simp [List.cons_append, List.take_append_drop]

theorem chunksOf_take_flatten (l : List OutRow) :
    ∀ j, ((chunksOf l).take j).flatten = l.take (batchSize * j) := by
  induction l using chunksOf.induct with
  | case1 =>
    intro j
    simp [chunksOf]
  | case2 a rest ih =>
    intro j
    rw [chunksOf]
    cases j with
    | zero => simp
    | succ j =>
      rw [List.take_succ_cons, List.flatten_cons, ih j]
      have hb : batchSize * (j + 1) = (batchSize - 1 + batchSize * j) + 1 := by
        unfold batchSize
        omega
      rw [hb, List.take_succ_cons, List.take_add]
      simp [List.cons_append]

theorem chunksOf_length_bound (l : List OutRow) :
    ∀ j, j < (chunksOf l).length → batchSize * j < l.length := by
  induction l using chunksOf.induct with
  | case1 =>
    intro j h
    rw [chunksOf] at h
    simp at h
  | case2 a rest ih =>
    intro j h
    rw [chunksOf] at h
    cases j with
    | zero =>
      simp
    | succ j =>
      have hj : j < (chunksOf (rest.drop (batchSize - 1))).length := by
        simpa using h
      have hlt := ih j hj
      rw [List.length_drop] at hlt
      unfold batchSize at hlt ⊢
      simp only [List.length_cons]
      omega

theorem insert_chunks_ok_spec (f : Nat → Bool) :
    ∀ (chunks : List (List OutRow)) (k : Nat) (db : List OutRow),
      (insert_chunks f k db chunks).1 = Except.ok () →
      (insert_chunks f k db chunks).2 = db ++ chunks.flatten := by
  intro chunks
  induction chunks with
  | nil =>
    intro k db _
    simp [insert_chunks]
  | cons c rest ih =>
    intro k db h
    rw [insert_chunks] at h ⊢
    by_cases hf : f k = true
    · rw [if_pos hf] at h
      exact absurd h (by simp)
    · rw [if_neg hf] at h ⊢
      rw [ih (k + 1) (db ++ c) h]
      simp [List.append_assoc]

theorem insert_chunks_error_spec (f : Nat → Bool) :
    ∀ (chunks : List (List OutRow)) (k : Nat) (db : List OutRow) (e : DomainError),
      (insert_chunks f k db chunks).1 = Except.error e →
      ∃ j, j < chunks.length ∧
        (insert_chunks f k db chunks).2 = db ++ (chunks.take j).flatten := by
  intro chunks
  induction chunks with
  | nil =>
    intro k db e h
    exact absurd h (by simp [insert_chunks])
  | cons c rest ih =>
    intro k db e h
    rw [insert_chunks] at h ⊢
    by_cases hf : f k = true
    · rw [if_pos hf] at h ⊢
      exact ⟨0, by simp, by simp⟩
    · rw [if_neg hf] at h ⊢
      obtain ⟨j, hj, h2⟩ := ih (k + 1) (db ++ c) e h
      refine ⟨j + 1, by simpa using hj, ?_⟩
      rw [h2, List.take_succ_cons, List.flatten_cons]
      simp [List.append_assoc]

/-- C3 as amended: create_batch is atomic per 1000-row chunk, not per batch.
    On success every row is persisted; on failure the persisted rows are
    exactly some number of complete leading 1000-row chunks of the input
    (so an error can leave rows behind whenever the batch exceeds 1000
    rows); for batches of at most 1000 rows the operation is genuinely
    all-or-nothing. -/
theorem C3_amended_per_chunk_atomicity (f : Nat → Bool) (db assignments : List OutRow) :
    ((create_batch f db assignments).1 = Except.ok () →
       (create_batch f db assignments).2 = db ++ assignments) ∧
    (∀ e, (create_batch f db assignments).1 = Except.error e →
       ∃ j, (create_batch f db assignments).2 = db ++ assignments.take (batchSize * j) ∧
            batchSize * j < assignments.length) ∧
    (assignments.length ≤ batchSize →
       ∀ e, (create_batch f db assignments).1 = Except.error e →
         (create_batch f db assignments).2 = db) := by
  by_cases hemp : assignments.isEmpty = true
  · have : assignments = [] := List.isEmpty_iff.mp hemp
    subst this
    refine ⟨?_, ?_, ?_⟩
    · intro _
      simp [create_batch]
    · intro e he
      exact absurd he (by simp [create_batch])
    · intro _ e he
      exact absurd he (by simp [create_batch])
  · have hcb : create_batch f db assignments =
        insert_chunks f 0 db (chunksOf assignments) := by
      unfold create_batch
      rw [if_neg hemp]
    have herr : ∀ e, (create_batch f db assignments).1 = Except.error e →
        ∃ j, (create_batch f db assignments).2 = db ++ assignments.take (batchSize * j) ∧
          batchSize * j < assignments.length := by
      intro e he
      rw [hcb] at he ⊢
      obtain ⟨j, hj, h2⟩ := insert_chunks_error_spec f (chunksOf assignments) 0 db e he
      refine ⟨j, ?_, chunksOf_length_bound assignments j hj⟩
      rw [h2, chunksOf_take_flatten]
    refine ⟨?_, herr, ?_⟩
    · intro h
      rw [hcb] at h ⊢
      rw [insert_chunks_ok_spec f (chunksOf assignments) 0 db h, chunksOf_flatten]
    · intro hle e he
      obtain ⟨j, h2, hlt⟩ := herr e he
      have hj0 : j = 0 := by
        by_contra hne
        have : batchSize ≤ batchSize * j := Nat.le_mul_of_pos_right batchSize (Nat.pos_of_ne_zero hne)
        omega
      subst hj0
      simpa using h2

/-- The assignment row used by the C3 witness and counterexample. -/
def row3 : OutRow := ⟨0, 0, 0, Shift.dayOff⟩

/-- C3 counterexample: a batch of 1001 rows whose second INSERT statement
    fails returns an error, yet the 1000 rows of the first chunk stay
    persisted — the claim that an error implies no persisted rows is false
    because the chunked statements do not run inside one transaction. -/
theorem chunksOf_singleton (r : OutRow) : chunksOf [r] = [[r]] := by
  rw [chunksOf]
  simp [chunksOf]

theorem C3_counterexample_partial_persist :
    (create_batch (fun k => k == 1) [] (List.replicate 1001 row3)).1 =
      Except.error (DomainError.databaseError "insert failed") ∧
    (create_batch (fun k => k == 1) [] (List.replicate 1001 row3)).2 =
      List.replicate 1000 row3 ∧
    (List.replicate 1000 row3 : List OutRow) ≠ [] := by
  have hchunks : chunksOf (List.replicate 1001 row3) =
      [List.replicate 1000 row3, [row3]] := by
    rw [show (1001 : Nat) = 1000 + 1 from rfl, List.replicate_succ, chunksOf,
      List.take_replicate, List.drop_replicate]
    unfold batchSize
    rw [show min (1000 - 1) 1000 = 999 from by norm_num,
      show 1000 - (1000 - 1) = 1 from by norm_num,
      show List.replicate 1 row3 = [row3] from rfl, chunksOf_singleton,
      show List.replicate (1000 : Nat) row3 = row3 :: List.replicate 999 row3 from rfl]
  have hcb : create_batch (fun k => k == 1) [] (List.replicate 1001 row3) =
      insert_chunks (fun k => k == 1) 0 [] [List.replicate 1000 row3, [row3]] := by
    unfold create_batch
    rw [if_neg (by simp), hchunks]
  rw [hcb]
  rw [insert_chunks, if_neg (by decide), insert_chunks, if_pos (by decide)]
  refine ⟨rfl, List.nil_append _, ?_⟩
  intro hcontra
  have hlen := congrArg List.length hcontra
  rw [List.length_replicate, List.length_nil] at hlen
  exact absurd hlen (by decide)

/-- Witness for the amended C3 theorem: a successful small batch persists
    every row. -/
theorem C3_amended_witness :
    (create_batch (fun _ => false) [] [row3]).2 = [] ++ [row3] :=
  (C3_amended_per_chunk_atomicity (fun _ => false) [] [row3]).1 (by
    have h1 : create_batch (fun _ => false) [] [row3] =
        insert_chunks (fun _ => false) 0 [] [[row3]] := by
      unfold create_batch
      rw [if_neg (by simp), chunksOf_singleton]
    rw [h1]
    simp [insert_chunks])

/-- Generic invariant preservation for the greedy pass: any property stable
    under the validated insertions the pass performs is preserved. -/
theorem assign_shift_type_go_invariant (rules : List RuleSpec) (date : Int) (shift : Shift)
    (P : Sched → Prop) :
    ∀ (pending : List Nat) (sched : Sched) (kept : List Nat) (remaining : Nat),
      (∀ sc st, P sc → st ∈ pending →
        validate_assignment rules ⟨sc, st, date, shift⟩ = true →
        P (schedInsert sc st date shift)) →
      P sched →
      P (assign_shift_type_go rules date shift sched kept pending remaining).1 := by
  intro pending
  induction pending with
  | nil =>
    intro sched kept remaining _ hP
    rw [assign_shift_type_go]
    exact hP
  | cons st rest ih =>
    intro sched kept remaining hins hP
    cases remaining with
    | zero =>
      rw [assign_shift_type_go]
      · exact hP
      · simp
    | succ rem =>
      rw [assign_shift_type_go]
      by_cases hv : validate_assignment rules ⟨sched, st, date, shift⟩ = true
      · rw [if_pos hv]
        exact ih _ _ _ (fun sc st2 h1 h2 h3 => hins sc st2 h1 (List.mem_cons_of_mem st h2) h3)
          (hins sched st hP (List.mem_cons_self st rest) hv)
      · rw [if_neg hv]
        exact ih _ _ _ (fun sc st2 h1 h2 h3 => hins sc st2 h1 (List.mem_cons_of_mem st h2) h3) hP

/-- The leftover unassigned staff of the greedy pass all come from the kept
    prefix or the pending list. -/
theorem assign_shift_type_go_subset (rules : List RuleSpec) (date : Int) (shift : Shift) :
    ∀ (pending : List Nat) (sched : Sched) (kept : List Nat) (remaining : Nat) (st2 : Nat),
      st2 ∈ (assign_shift_type_go rules date shift sched kept pending remaining).2 →
      st2 ∈ kept ∨ st2 ∈ pending := by
  intro pending
  induction pending with
  | nil =>
    intro sched kept remaining st2 h
    rw [assign_shift_type_go] at h
    exact Or.inl h
  | cons st rest ih =>
    intro sched kept remaining st2 h
    cases remaining with
    | zero =>
      rw [assign_shift_type_go] at h
      · rcases List.mem_append.mp h with h1 | h1
        · exact Or.inl h1
        · exact Or.inr h1
      · simp
    | succ rem =>
      rw [assign_shift_type_go] at h
      by_cases hv : validate_assignment rules ⟨sched, st, date, shift⟩ = true
      · rw [if_pos hv] at h
        rcases ih _ _ _ _ h with h1 | h1
        · exact Or.inl h1
        · exact Or.inr (List.mem_cons_of_mem st h1)
      · rw [if_neg hv] at h
        rcases ih _ _ _ _ h with h1 | h1
        · rcases List.mem_append.mp h1 with h2 | h2
          · exact Or.inl h2
          · exact Or.inr (by simp [List.mem_singleton.mp h2])
        · exact Or.inr (List.mem_cons_of_mem st h1)

/-- Monotonicity of assignedness through the greedy pass. -/
theorem assign_shift_type_go_isSome_mono (rules : List RuleSpec) (date : Int) (shift : Shift)
    (pending : List Nat) (sched : Sched) (kept : List Nat) (remaining : Nat)
    (st2 : Nat) (d2 : Int)
    (h : (schedGet sched st2 d2).isSome) :
    ((schedGet (assign_shift_type_go rules date shift sched kept pending remaining).1
      st2 d2)).isSome := by
  refine assign_shift_type_go_invariant rules date shift
    (fun sc => (schedGet sc st2 d2).isSome) pending sched kept remaining ?_ h
  intro sc st hsome hmem hv
  rw [schedGet_insert]
  by_cases hc : st2 = st ∧ d2 = date
  · rw [if_pos hc]
    rfl
  · rw [if_neg hc]
    exact hsome

/-- Every staff of the input is either still unassigned after the greedy
    pass or carries an assignment on the date. -/
theorem assign_shift_type_go_coverage (rules : List RuleSpec) (date : Int) (shift : Shift) :
    ∀ (pending : List Nat) (sched : Sched) (kept : List Nat) (remaining : Nat) (st2 : Nat),
      st2 ∈ kept ++ pending →
      st2 ∈ (assign_shift_type_go rules date shift sched kept pending remaining).2 ∨
      (schedGet (assign_shift_type_go rules date shift sched kept pending remaining).1
        st2 date).isSome := by
  intro pending
  induction pending with
  | nil =>
    intro sched kept remaining st2 h
    rw [assign_shift_type_go]
    exact Or.inl (by simpa using h)
  | cons st rest ih =>
    intro sched kept remaining st2 h
    cases remaining with
    | zero =>
      rw [assign_shift_type_go]
      · exact Or.inl h
      · simp
    | succ rem =>
      rw [assign_shift_type_go]
      by_cases hv : validate_assignment rules ⟨sched, st, date, shift⟩ = true
      · rw [if_pos hv]
        by_cases hst : st2 = st
        · subst hst
          refine Or.inr (assign_shift_type_go_isSome_mono rules date shift rest _ kept rem st2 date ?_)
          rw [schedGet_insert, if_pos ⟨rfl, rfl⟩]
          rfl
        · have hmem : st2 ∈ kept ++ rest := by
            rcases List.mem_append.mp h with h1 | h1
            · exact List.mem_append.mpr (Or.inl h1)
            · rcases List.mem_cons.mp h1 with h2 | h2
              · exact absurd h2 hst
              · exact List.mem_append.mpr (Or.inr h2)
          exact ih _ _ _ _ hmem
      · rw [if_neg hv]
        have hmem : st2 ∈ (kept ++ [st]) ++ rest := by
          rcases List.mem_append.mp h with h1 | h1
          · exact List.mem_append.mpr (Or.inl (List.mem_append.mpr (Or.inl h1)))
          · rcases List.mem_cons.mp h1 with h2 | h2
            · exact List.mem_append.mpr (Or.inl (List.mem_append.mpr (Or.inr (by simp [h2]))))
            · exact List.mem_append.mpr (Or.inr h2)
        exact ih _ _ _ _ hmem

/-- A successful alternative in try_assign is a validated insertion of one
    of the alternative shifts. -/
theorem try_alternatives_spec (rules : List RuleSpec) (sched : Sched) (st : Nat) (d : Int) :
    ∀ (alts : List Shift) (s2 : Sched), try_alternatives rules sched st d alts = some s2 →
      ∃ a ∈ alts, validate_assignment rules ⟨sched, st, d, a⟩ = true ∧
        s2 = schedInsert sched st d a := by
  intro alts
  induction alts with
  | nil =>
    intro s2 h
    exact absurd h (by simp [try_alternatives])
  | cons a rest ih =>
    intro s2 h
    rw [try_alternatives] at h
    by_cases hv : validate_assignment rules ⟨sched, st, d, a⟩ = true
    · rw [if_pos hv] at h
      exact ⟨a, List.mem_cons_self a rest, hv, (Option.some.injEq _ _ ▸ h).symm⟩
    · rw [if_neg hv] at h
      obtain ⟨a2, ha2, hva, hs⟩ := ih s2 h
      exact ⟨a2, List.mem_cons_of_mem a ha2, hva, hs⟩

/-- try_assign always performs exactly one insertion at (staff, date). -/
theorem try_assign_shape (rules : List RuleSpec) (sched : Sched) (st : Nat) (d : Int)
    (preferred : Shift) :
    ∃ sh, try_assign rules sched st d preferred = schedInsert sched st d sh := by
  unfold try_assign
  by_cases hv : validate_assignment rules ⟨sched, st, d, preferred⟩ = true
  · rw [if_pos hv]
    exact ⟨preferred, rfl⟩
  · rw [if_neg hv]
    cases halt : try_alternatives rules sched st d (fallback_alternatives preferred) with
    | none => exact ⟨preferred, rfl⟩
    | some s2 =>
      obtain ⟨a, _, _, hs⟩ := try_alternatives_spec rules sched st d _ s2 halt
      exact ⟨a, hs⟩

/-- try_assign with a DAY_OFF preference inserts either a day off or a
    validated shift. -/
theorem try_assign_dayOff_shape (rules : List RuleSpec) (sched : Sched) (st : Nat) (d : Int) :
    ∃ sh, try_assign rules sched st d Shift.dayOff = schedInsert sched st d sh ∧
      (sh = Shift.dayOff ∨ validate_assignment rules ⟨sched, st, d, sh⟩ = true) := by
  unfold try_assign
  by_cases hv : validate_assignment rules ⟨sched, st, d, Shift.dayOff⟩ = true
  · rw [if_pos hv]
    exact ⟨Shift.dayOff, rfl, Or.inl rfl⟩
  · rw [if_neg hv]
    cases halt : try_alternatives rules sched st d (fallback_alternatives Shift.dayOff) with
    | none => exact ⟨Shift.dayOff, rfl, Or.inl rfl⟩
    | some s2 =>
      obtain ⟨a, _, hva, hs⟩ := try_alternatives_spec rules sched st d _ s2 halt
      exact ⟨a, hs, Or.inr hva⟩

/-- Invariant preservation through the closing day-off loop of
    assign_shifts_for_day: each step is one try_assign insertion that is
    either a day off or validated. -/
theorem foldl_try_assign_invariant (rules : List RuleSpec) (date : Int) (P : Sched → Prop) :
    ∀ (l : List Nat) (sc : Sched),
      (∀ s st sh, P s → st ∈ l →
        (sh = Shift.dayOff ∨ validate_assignment rules ⟨s, st, date, sh⟩ = true) →
        P (schedInsert s st date sh)) →
      P sc →
      P (l.foldl (fun s st => try_assign rules s st date Shift.dayOff) sc) := by
  intro l
  induction l with
  | nil =>
    intro sc _ hP
    simpa using hP
  | cons st rest ih =>
    intro sc hins hP
    rw [List.foldl_cons]
    apply ih
    · intro s st2 sh h1 h2 h3
      exact hins s st2 sh h1 (List.mem_cons_of_mem st h2) h3
    · obtain ⟨sh, hsh, hcond⟩ := try_assign_dayOff_shape rules sc st date
      rw [hsh]
      exact hins sc st sh hP (List.mem_cons_self st rest) hcond

theorem foldl_try_assign_isSome_mono (rules : List RuleSpec) (date : Int) (l : List Nat)
    (sc : Sched) (st2 : Nat) (d2 : Int)
    (h : (schedGet sc st2 d2).isSome) :
    (schedGet (l.foldl (fun s st => try_assign rules s st date Shift.dayOff) sc)
      st2 d2).isSome := by
  refine foldl_try_assign_invariant rules date
    (fun s => (schedGet s st2 d2).isSome) l sc ?_ h
  intro s st sh hs _ _
  rw [schedGet_insert]
  by_cases hc : st2 = st ∧ d2 = date
  · rw [if_pos hc]
    rfl
  · rw [if_neg hc]
    exact hs

theorem foldl_try_assign_coverage (rules : List RuleSpec) (date : Int) :
    ∀ (l : List Nat) (sc : Sched) (st2 : Nat), st2 ∈ l →
      (schedGet (l.foldl (fun s st => try_assign rules s st date Shift.dayOff) sc)
        st2 date).isSome := by
  intro l
  induction l with
  | nil =>
    intro sc st2 h
    simp at h
  | cons st rest ih =>
    intro sc st2 h
    rw [List.foldl_cons]
    rcases List.mem_cons.mp h with h1 | h1
    · subst h1
      apply foldl_try_assign_isSome_mono
      obtain ⟨sh, hsh⟩ := try_assign_shape rules sc st2 date Shift.dayOff
      rw [hsh, schedGet_insert, if_pos ⟨rfl, rfl⟩]
      rfl
    · exact ih _ _ h1

/-- Assignedness only grows through a whole day pass. -/
theorem assign_shifts_for_day_isSome_mono (rules : List RuleSpec) (sched : Sched)
    (staffIds : List Nat) (date : Int) (st2 : Nat) (d2 : Int)
    (h : (schedGet sched st2 d2).isSome) :
    (schedGet (assign_shifts_for_day rules sched staffIds date) st2 d2).isSome := by
  simp only [assign_shifts_for_day, assign_shift_type]
  apply foldl_try_assign_isSome_mono
  apply assign_shift_type_go_isSome_mono
  apply assign_shift_type_go_isSome_mono
  exact h

/-- A day pass keeps the schedule well-formed. -/
theorem assign_shifts_for_day_wf (rules : List RuleSpec) (sched : Sched)
    (staffIds : List Nat) (date : Int) (h : SchedWF sched) :
    SchedWF (assign_shifts_for_day rules sched staffIds date) := by
  simp only [assign_shifts_for_day, assign_shift_type]
  apply foldl_try_assign_invariant rules date SchedWF
  · intro s st sh hs _ _
    exact schedWF_insert s st date sh hs
  · apply assign_shift_type_go_invariant rules date Shift.evening SchedWF
    · intro sc st2 h1 _ _
      exact schedWF_insert _ _ _ _ h1
    · apply assign_shift_type_go_invariant rules date Shift.morning SchedWF
      · intro sc st2 h1 _ _
        exact schedWF_insert _ _ _ _ h1
      · exact h

/-- After a day pass, every staff member of the input list has an
    assignment on the date. -/
theorem assign_shifts_for_day_totality (rules : List RuleSpec) (sched : Sched)
    (staffIds : List Nat) (date : Int) (st : Nat) (hst : st ∈ staffIds) :
    (schedGet (assign_shifts_for_day rules sched staffIds date) st date).isSome := by
  by_cases h0 : (schedGet sched st date).isSome
  · exact assign_shifts_for_day_isSome_mono rules sched staffIds date st date h0
  · simp only [assign_shifts_for_day, assign_shift_type]
    set u := staffIds.filter (fun s2 => (schedGet sched s2 date).isNone) with hu_def
    set tm := u.length / 3 with htm
    set te := (u.length - tm) / 2 with hte
    set p1 := assign_shift_type_go rules date Shift.morning sched [] u tm with hp1
    have hu : st ∈ u := by
      rw [hu_def]
      refine List.mem_filter.mpr ⟨hst, ?_⟩
      simp only [Option.isNone_iff_eq_none]
      exact Option.not_isSome_iff_eq_none.mp h0
    rcases assign_shift_type_go_coverage rules date Shift.morning u sched [] tm st
        (by simpa using hu) with hmem1 | hsome1
    · rcases assign_shift_type_go_coverage rules date Shift.evening p1.2 p1.1 [] te st
          (by simpa using hmem1) with hmem2 | hsome2
      · exact foldl_try_assign_coverage rules date _ _ st hmem2
      · exact foldl_try_assign_isSome_mono rules date _ _ st date hsome2
    · apply foldl_try_assign_isSome_mono
      exact assign_shift_type_go_isSome_mono rules date Shift.evening p1.2 p1.1 [] te st date hsome1

/-- A day pass does not touch other dates nor staff outside the input
    list. -/
theorem assign_shifts_for_day_frame (rules : List RuleSpec) (sched : Sched)
    (staffIds : List Nat) (date : Int) (st2 : Nat) (d2 : Int)
    (hcond : d2 ≠ date ∨ st2 ∉ staffIds) :
    schedGet (assign_shifts_for_day rules sched staffIds date) st2 d2 =
      schedGet sched st2 d2 := by
  simp only [assign_shifts_for_day, assign_shift_type]
  set u := staffIds.filter (fun s2 => (schedGet sched s2 date).isNone) with hu_def
  set tm := u.length / 3 with htm
  set te := (u.length - tm) / 2 with hte
  set p1 := assign_shift_type_go rules date Shift.morning sched [] u tm with hp1
  have husub : ∀ st, st ∈ u → st ∈ staffIds := by
    intro st hmem
    rw [hu_def] at hmem
    exact (List.mem_filter.mp hmem).1
  have hins_ok : ∀ (s : Sched) (st : Nat), st ∈ staffIds → ∀ sh,
      schedGet (schedInsert s st date sh) st2 d2 = schedGet s st2 d2 := by
    intro s st hstm sh
    rw [schedGet_insert, if_neg]
    rintro ⟨h1, h2⟩
    rcases hcond with hc | hc
    · exact hc h2
    · exact hc (h1 ▸ hstm)
  have hp1sub : ∀ st, st ∈ p1.2 → st ∈ staffIds := by
    intro st hmem
    rcases assign_shift_type_go_subset rules date Shift.morning u sched [] tm st
        (hp1 ▸ hmem) with h | h
    · simp at h
    · exact husub st h
  apply foldl_try_assign_invariant rules date
    (fun s => schedGet s st2 d2 = schedGet sched st2 d2)
  · intro s st sh hPs hmem _
    have hstm : st ∈ staffIds := by
      rcases assign_shift_type_go_subset rules date Shift.evening p1.2 p1.1 [] te st
          hmem with h | h
      · simp at h
      · exact hp1sub st h
    rw [hins_ok s st hstm sh]
    exact hPs
  · apply assign_shift_type_go_invariant rules date Shift.evening
      (fun s => schedGet s st2 d2 = schedGet sched st2 d2)
    · intro sc st hPs hmem _
      rw [hins_ok sc st (hp1sub st hmem) _]
      exact hPs
    · apply assign_shift_type_go_invariant rules date Shift.morning
        (fun s => schedGet s st2 d2 = schedGet sched st2 d2)
      · intro sc st hPs hmem _
        rw [hins_ok sc st (husub st hmem) _]
        exact hPs
      · rfl

theorem runDays_zero (rules : List RuleSpec) (staffIds : List Nat) (start : Int) :
    runDays rules staffIds start 0 = [] := rfl

theorem runDays_succ (rules : List RuleSpec) (staffIds : List Nat) (start : Int) (n : Nat) :
    runDays rules staffIds start (n + 1) =
      assign_shifts_for_day rules (runDays rules staffIds start n) staffIds
        (start + (n : Int)) := by
  unfold runDays
  rw [List.range_succ, List.foldl_append, List.foldl_cons, List.foldl_nil]

/-- Domain characterization of the day loop: after n days the schedule holds
    an assignment exactly for the input staff on the first n dates. -/
theorem runDays_isSome_iff (rules : List RuleSpec) (staffIds : List Nat) (start : Int) :
    ∀ (n : Nat) (st : Nat) (d : Int),
      (schedGet (runDays rules staffIds start n) st d).isSome ↔
        (st ∈ staffIds ∧ ∃ k, k < n ∧ d = start + (k : Int)) := by
  intro n
  induction n with
  | zero =>
    intro st d
    rw [runDays_zero]
    constructor
    · intro h
      exact absurd h (by simp [schedGet])
    · rintro ⟨_, k, hk, _⟩
      exact absurd hk (by omega)
  | succ n ih =>
    intro st d
    rw [runDays_succ]
    constructor
    · intro h
      by_cases hcond : d = start + (n : Int) ∧ st ∈ staffIds
      · exact ⟨hcond.2, n, Nat.lt_succ_self n, hcond.1⟩
      · have hframe : schedGet (assign_shifts_for_day rules
            (runDays rules staffIds start n) staffIds (start + (n : Int))) st d =
            schedGet (runDays rules staffIds start n) st d := by
          apply assign_shifts_for_day_frame
          rcases not_and_or.mp hcond with h1 | h1
          · exact Or.inl h1
          · exact Or.inr h1
        rw [hframe] at h
        obtain ⟨hmem, k, hk, hd⟩ := (ih st d).mp h
        exact ⟨hmem, k, Nat.lt_succ_of_lt hk, hd⟩
    · rintro ⟨hmem, k, hk, hd⟩
      by_cases hkn : k = n
      · subst hkn
        subst hd
        exact assign_shifts_for_day_totality rules _ staffIds _ st hmem
      · have hk2 : k < n := Nat.lt_of_le_of_ne (Nat.lt_succ_iff.mp hk) hkn
        apply assign_shifts_for_day_isSome_mono
        exact (ih st d).mpr ⟨hmem, k, hk2, hd⟩

theorem runDays_wf (rules : List RuleSpec) (staffIds : List Nat) (start : Int) :
    ∀ n, SchedWF (runDays rules staffIds start n) := by
  intro n
  induction n with
  | zero =>
    rw [runDays_zero]
    exact schedWF_nil
  | succ n ih =>
    rw [runDays_succ]
    exact assign_shifts_for_day_wf rules _ staffIds _ ih

theorem countP_key_eq_one {l : List (Nat × Int)} (hnd : l.Nodup) {st : Nat} {d : Int}
    (hmem : (st, d) ∈ l) :
    l.countP (fun q => q.1 == st && q.2 == d) = 1 := by
  induction l with
  | nil => simp at hmem
  | cons a rest ih =>
    rw [List.countP_cons]
    rcases List.mem_cons.mp hmem with h1 | h1
    · subst h1
      have hnotin : (st, d) ∉ rest := (List.nodup_cons.mp hnd).1
      have hz : rest.countP (fun q => q.1 == st && q.2 == d) = 0 := by
        rw [List.countP_eq_zero]
        intro q hq hpq
        simp only [Bool.and_eq_true, beq_iff_eq] at hpq
        have hq2 : q = (st, d) := by
          obtain ⟨q1, q2⟩ := q
          simp only at hpq
          simp [hpq.1, hpq.2]
        exact hnotin (hq2 ▸ hq)
      rw [hz, if_pos (by simp)]
    · have hane : ¬(a.1 == st && a.2 == d) = true := by
        intro hpa
        simp only [Bool.and_eq_true, beq_iff_eq] at hpa
        have ha2 : a = (st, d) := by
          obtain ⟨a1, a2⟩ := a
          simp only at hpa
          simp [hpa.1, hpa.2]
        exact (List.nodup_cons.mp hnd).1 (ha2 ▸ h1)
      rw [ih (List.nodup_cons.mp hnd).2 h1, if_neg hane]

theorem countP_key_eq_zero {l : List (Nat × Int)} {st : Nat} {d : Int}
    (hnot : (st, d) ∉ l) :
    l.countP (fun q => q.1 == st && q.2 == d) = 0 := by
  rw [List.countP_eq_zero]
  intro q hq hpq
  simp only [Bool.and_eq_true, beq_iff_eq] at hpq
  have hq2 : q = (st, d) := by
    obtain ⟨q1, q2⟩ := q
    simp only at hpq
    simp [hpq.1, hpq.2]
  exact hnot (hq2 ▸ hq)

theorem outLE_trans (a b c : OutRow) (h1 : outLE a b = true) (h2 : outLE b c = true) :
    outLE a c = true := by
  unfold outLE at h1 h2 ⊢
  rw [decide_eq_true_iff] at h1 h2 ⊢
  rcases h1 with h1 | ⟨h1, h1b⟩ <;> rcases h2 with h2 | ⟨h2, h2b⟩
  · exact Or.inl (lt_trans h1 h2)
  · exact Or.inl (h2 ▸ h1)
  · exact Or.inl (h1 ▸ h2)
  · exact Or.inr ⟨h1.trans h2, le_trans h1b h2b⟩

theorem outLE_total (a b : OutRow) : (outLE a b || outLE b a) = true := by
  unfold outLE
  rw [Bool.or_eq_true, decide_eq_true_iff, decide_eq_true_iff]
  rcases lt_trichotomy a.date b.date with h | h | h
  · exact Or.inl (Or.inl h)
  · rcases Nat.le_total a.staffId b.staffId with h2 | h2
    · exact Or.inl (Or.inr ⟨h, h2⟩)
    · exact Or.inr (Or.inr ⟨h.symm, h2⟩)
  · exact Or.inr (Or.inl h)

/-- The dates of the generated window. -/
def windowDates (start : Int) : List Int :=
  (List.range 28).map (fun (k : Nat) => start + (k : Int))

theorem windowDates_nodup (start : Int) : (windowDates start).Nodup := by
  unfold windowDates
  refine List.Nodup.map ?_ (List.nodup_range 28)
  intro a b h
  simp only at h
  omega

theorem mem_windowDates (start : Int) (d : Int) :
    d ∈ windowDates start ↔ ∃ k : Nat, k < 28 ∧ d = start + (k : Int) := by
  unfold windowDates
  simp only [List.mem_map, List.mem_range]
  constructor
  · rintro ⟨k, hk, hd⟩
    exact ⟨k, hk, hd.symm⟩
  · rintro ⟨k, hk, hd⟩
    exact ⟨k, hk, hd.symm⟩

/-- Full functional specification of a successful generate_schedule run:
    it returns Ok, the output has one row per (distinct staff, window date)
    pair tagged with the job id, rows outside that grid do not occur, and
    the list is sorted by (date, staff_id). -/
theorem generate_schedule_spec (rules : List RuleSpec) (staffIds : List Nat) (start : Int)
    (jobId : Nat) (hmon : weekdayFromMonday start = 0) (hne : staffIds ≠ []) :
    ∃ out, generate_schedule rules staffIds start jobId = Except.ok out ∧
      out.length = 28 * staffIds.dedup.length ∧
      (∀ r ∈ out, r.scheduleJobId = jobId) ∧
      (∀ st d, st ∈ staffIds → (∃ k : Nat, k < 28 ∧ d = start + (k : Int)) →
        out.countP (fun r => r.staffId == st && r.date == d) = 1) ∧
      (∀ st d, st ∉ staffIds ∨ (¬ ∃ k : Nat, k < 28 ∧ d = start + (k : Int)) →
        out.countP (fun r => r.staffId == st && r.date == d) = 0) ∧
      List.Pairwise (fun a b => outLE a b = true) out := by
  have hwf := runDays_wf rules staffIds start 28
  have hchar := runDays_isSome_iff rules staffIds start 28
  have hkeys : ∀ st d, (st, d) ∈ schedKeys (runDays rules staffIds start 28) ↔
      (st ∈ staffIds ∧ ∃ k : Nat, k < 28 ∧ d = start + (k : Int)) := by
    intro st d
    rw [← schedGet_isSome_iff_mem_keys]
    exact hchar st d
  have hout : generate_schedule rules staffIds start jobId =
      Except.ok (((runDays rules staffIds start 28).map
        (fun e => OutRow.mk jobId e.1 e.2.1 e.2.2)).mergeSort outLE) := by
    unfold generate_schedule
    rw [if_neg (by simp [hmon]), if_neg (fun hcontra => hne (List.isEmpty_iff.mp hcontra))]
  refine ⟨_, hout, ?_, ?_, ?_, ?_, ?_⟩
  · rw [List.length_mergeSort, List.length_map]
    have hlen : (runDays rules staffIds start 28).length =
        (schedKeys (runDays rules staffIds start 28)).length :=
      (List.length_map _ _).symm
    rw [hlen]
    have hperm : (schedKeys (runDays rules staffIds start 28)).Perm
        (staffIds.dedup ×ˢ windowDates start) := by
      rw [List.perm_ext_iff_of_nodup hwf
        (List.Nodup.product (List.nodup_dedup staffIds) (windowDates_nodup start))]
      intro p
      obtain ⟨st, d⟩ := p
      rw [hkeys st d, List.mem_product, List.mem_dedup, mem_windowDates]
    rw [hperm.length_eq, List.length_product]
    unfold windowDates
    rw [List.length_map, List.length_range]
    omega
  · intro r hr
    rw [List.mem_mergeSort] at hr
    obtain ⟨e, _, hfe⟩ := List.mem_map.mp hr
    rw [← hfe]
  · intro st d hmem hk
    rw [((((runDays rules staffIds start 28).map
      (fun e => OutRow.mk jobId e.1 e.2.1 e.2.2)).mergeSort_perm outLE)).countP_eq]
    show ((runDays rules staffIds start 28).map
      (fun e => OutRow.mk jobId e.1 e.2.1 e.2.2)).countP
        (fun r => r.staffId == st && r.date == d) = 1
    rw [List.countP_map]
    show (runDays rules staffIds start 28).countP
      (fun e => e.1 == st && e.2.1 == d) = 1
    have hmap := List.countP_map (fun q : Nat × Int => q.1 == st && q.2 == d)
      (fun e : Nat × Int × Shift => (e.1, e.2.1)) (runDays rules staffIds start 28)
    rw [show ((fun q : Nat × Int => q.1 == st && q.2 == d) ∘
        (fun e : Nat × Int × Shift => (e.1, e.2.1))) =
      (fun e : Nat × Int × Shift => e.1 == st && e.2.1 == d) from rfl] at hmap
    rw [← hmap]
    exact countP_key_eq_one hwf ((hkeys st d).mpr ⟨hmem, hk⟩)
  · intro st d hcond
    rw [((((runDays rules staffIds start 28).map
      (fun e => OutRow.mk jobId e.1 e.2.1 e.2.2)).mergeSort_perm outLE)).countP_eq]
    show ((runDays rules staffIds start 28).map
      (fun e => OutRow.mk jobId e.1 e.2.1 e.2.2)).countP
        (fun r => r.staffId == st && r.date == d) = 0
    rw [List.countP_map]
    show (runDays rules staffIds start 28).countP
      (fun e => e.1 == st && e.2.1 == d) = 0
    have hmap := List.countP_map (fun q : Nat × Int => q.1 == st && q.2 == d)
      (fun e : Nat × Int × Shift => (e.1, e.2.1)) (runDays rules staffIds start 28)
    rw [show ((fun q : Nat × Int => q.1 == st && q.2 == d) ∘
        (fun e : Nat × Int × Shift => (e.1, e.2.1))) =
      (fun e : Nat × Int × Shift => e.1 == st && e.2.1 == d) from rfl] at hmap
    rw [← hmap]
    refine countP_key_eq_zero ?_
    intro hmemk
    have := (hkeys st d).mp hmemk
    rcases hcond with h | h
    · exact h this.1
    · exact h this.2
  · exact List.sorted_mergeSort outLE_trans outLE_total _

/-- C1: for every duplicate-free non-empty staff list and Monday start
    date, generate_schedule returns Ok with exactly 28 × |staff_ids| rows,
    exactly one per (staff, date) pair over the 28 consecutive days from the
    start date and none outside that grid, each tagged with the job id, and
    the list is sorted by (date, staff_id). -/
theorem C1_schedule_totality (rules : List RuleSpec) (staffIds : List Nat) (start : Int)
    (jobId : Nat) (hmon : weekdayFromMonday start = 0) (hne : staffIds ≠ [])
    (hnd : staffIds.Nodup) :
    ∃ out, generate_schedule rules staffIds start jobId = Except.ok out ∧
      out.length = 28 * staffIds.length ∧
      (∀ r ∈ out, r.scheduleJobId = jobId) ∧
      (∀ st d, st ∈ staffIds → (∃ k : Nat, k < 28 ∧ d = start + (k : Int)) →
        out.countP (fun r => r.staffId == st && r.date == d) = 1) ∧
      (∀ st d, st ∉ staffIds ∨ (¬ ∃ k : Nat, k < 28 ∧ d = start + (k : Int)) →
        out.countP (fun r => r.staffId == st && r.date == d) = 0) ∧
      List.Pairwise (fun a b => outLE a b = true) out := by
  obtain ⟨out, h1, h2, h3, h4, h5, h6⟩ :=
    generate_schedule_spec rules staffIds start jobId hmon hne
  exact ⟨out, h1, by rw [h2, List.Nodup.dedup hnd], h3, h4, h5, h6⟩

/-- Witness for C1 at a single staff member and start date 0 (a Monday in
    the day-number model). -/
theorem C1_witness :
    ∃ out, generate_schedule (defaultRules 1 3 1) [5] 0 9 = Except.ok out ∧
      out.length = 28 * ([5] : List Nat).length ∧
      (∀ r ∈ out, r.scheduleJobId = 9) ∧
      (∀ st d, st ∈ ([5] : List Nat) → (∃ k : Nat, k < 28 ∧ d = 0 + (k : Int)) →
        out.countP (fun r => r.staffId == st && r.date == d) = 1) ∧
      (∀ st d, st ∉ ([5] : List Nat) ∨ (¬ ∃ k : Nat, k < 28 ∧ d = 0 + (k : Int)) →
        out.countP (fun r => r.staffId == st && r.date == d) = 0) ∧
      List.Pairwise (fun a b => outLE a b = true) out :=
  C1_schedule_totality (defaultRules 1 3 1) [5] 0 9 (by decide) (by simp) (by simp)

/-- C10: when the staff id list contains duplicates they collapse: the
    output of a successful run has exactly one assignment per (distinct
    staff id, date) pair, hence 28 × |distinct staff ids| rows. -/
theorem C10_duplicate_staff_ids_collapse (rules : List RuleSpec) (staffIds : List Nat)
    (start : Int) (jobId : Nat) (hmon : weekdayFromMonday start = 0) (hne : staffIds ≠ []) :
    ∃ out, generate_schedule rules staffIds start jobId = Except.ok out ∧
      out.length = 28 * staffIds.dedup.length ∧
      (∀ st d, st ∈ staffIds → (∃ k : Nat, k < 28 ∧ d = start + (k : Int)) →
        out.countP (fun r => r.staffId == st && r.date == d) = 1) ∧
      (∀ st d, st ∉ staffIds ∨ (¬ ∃ k : Nat, k < 28 ∧ d = start + (k : Int)) →
        out.countP (fun r => r.staffId == st && r.date == d) = 0) := by
  obtain ⟨out, h1, h2, _, h4, h5, _⟩ :=
    generate_schedule_spec rules staffIds start jobId hmon hne
  exact ⟨out, h1, h2, h4, h5⟩

/-- Witness for C10 at the duplicate list [5, 5]: 28 rows, not 56. -/
theorem C10_witness :
    ∃ out, generate_schedule (defaultRules 1 3 1) [5, 5] 0 9 = Except.ok out ∧
      out.length = 28 * ([5, 5] : List Nat).dedup.length ∧
      (∀ st d, st ∈ ([5, 5] : List Nat) → (∃ k : Nat, k < 28 ∧ d = 0 + (k : Int)) →
        out.countP (fun r => r.staffId == st && r.date == d) = 1) ∧
      (∀ st d, st ∉ ([5, 5] : List Nat) ∨ (¬ ∃ k : Nat, k < 28 ∧ d = 0 + (k : Int)) →
        out.countP (fun r => r.staffId == st && r.date == d) = 0) :=
  C10_duplicate_staff_ids_collapse (defaultRules 1 3 1) [5, 5] 0 9 (by decide) (by simp)

/-- The cross-day safety property of C4: no staff works an evening shift
    directly followed by a morning shift. -/
def NoEveningThenMorning (s : Sched) : Prop :=
  ∀ st d, ¬(schedGet s st d = some Shift.evening ∧
    schedGet s st (d + 1) = some Shift.morning)

theorem nmae_morning_prev {s : Sched} {st : Nat} {dd : Int}
    (h : no_morning_after_evening_validate ⟨s, st, dd, Shift.morning⟩ = true) :
    schedGet s st (dd - 1) ≠ some Shift.evening := by
  unfold no_morning_after_evening_validate get_previous_shift at h
  rw [Bool.and_eq_true] at h
  have h1 := h.1
  rw [if_pos rfl] at h1
  intro hcontra
  rw [hcontra] at h1
  exact absurd h1 (by simp)

theorem nmae_evening_next {s : Sched} {st : Nat} {dd : Int}
    (h : no_morning_after_evening_validate ⟨s, st, dd, Shift.evening⟩ = true) :
    schedGet s st (dd + 1) ≠ some Shift.morning := by
  unfold no_morning_after_evening_validate get_next_shift at h
  rw [Bool.and_eq_true] at h
  have h2 := h.2
  rw [if_pos rfl] at h2
  intro hcontra
  rw [hcontra] at h2
  exact absurd h2 (by simp)

theorem noEM_insert_dayOff {s : Sched} (h : NoEveningThenMorning s) (st : Nat) (dd : Int) :
    NoEveningThenMorning (schedInsert s st dd Shift.dayOff) := by
  intro st2 d2
  rintro ⟨h1, h2⟩
  rw [schedGet_insert] at h1 h2
  by_cases c1 : st2 = st ∧ d2 = dd
  · rw [if_pos c1] at h1
    exact absurd h1 (by simp)
  · rw [if_neg c1] at h1
    by_cases c2 : st2 = st ∧ d2 + 1 = dd
    · rw [if_pos c2] at h2
      exact absurd h2 (by simp)
    · rw [if_neg c2] at h2
      exact h st2 d2 ⟨h1, h2⟩

theorem noEM_insert_validated {s : Sched} (h : NoEveningThenMorning s) {st : Nat} {dd : Int}
    {sh : Shift} (hv : no_morning_after_evening_validate ⟨s, st, dd, sh⟩ = true) :
    NoEveningThenMorning (schedInsert s st dd sh) := by
  cases sh with
  | dayOff => exact noEM_insert_dayOff h st dd
  | morning =>
    intro st2 d2
    rintro ⟨h1, h2⟩
    rw [schedGet_insert] at h1 h2
    by_cases c1 : st2 = st ∧ d2 = dd
    · rw [if_pos c1] at h1
      exact absurd h1 (by simp)
    · rw [if_neg c1] at h1
      by_cases c2 : st2 = st ∧ d2 + 1 = dd
      · obtain ⟨hc1, hcd⟩ := c2
        subst hc1
        have hdd : d2 = dd - 1 := by omega
        rw [hdd] at h1
        exact nmae_morning_prev hv h1
      · rw [if_neg c2] at h2
        exact h st2 d2 ⟨h1, h2⟩
  | evening =>
    intro st2 d2
    rintro ⟨h1, h2⟩
    rw [schedGet_insert] at h1 h2
    by_cases c2 : st2 = st ∧ d2 + 1 = dd
    · rw [if_pos c2] at h2
      exact absurd h2 (by simp)
    · rw [if_neg c2] at h2
      by_cases c1 : st2 = st ∧ d2 = dd
      · obtain ⟨hc1, hcd⟩ := c1
        subst hc1
        rw [hcd] at h2
        exact nmae_evening_next hv h2
      · rw [if_neg c1] at h1
        exact h st2 d2 ⟨h1, h2⟩

theorem validate_imp_nmae {rules : List RuleSpec}
    (hmem : RuleSpec.noMorningAfterEvening ∈ rules) {ctx : AssignmentContext}
    (hv : validate_assignment rules ctx = true) :
    no_morning_after_evening_validate ctx = true := by
  unfold validate_assignment at hv
  rw [List.all_eq_true] at hv
  exact hv _ hmem

theorem noEM_day (rules : List RuleSpec) (hmem : RuleSpec.noMorningAfterEvening ∈ rules)
    (sched : Sched) (staffIds : List Nat) (date : Int) (h : NoEveningThenMorning sched) :
    NoEveningThenMorning (assign_shifts_for_day rules sched staffIds date) := by
  simp only [assign_shifts_for_day, assign_shift_type]
  apply foldl_try_assign_invariant rules date NoEveningThenMorning
  · intro s st sh hs _ hcond
    rcases hcond with h1 | h1
    · exact h1 ▸ noEM_insert_dayOff hs st date
    · exact noEM_insert_validated hs (validate_imp_nmae hmem h1)
  · apply assign_shift_type_go_invariant rules date Shift.evening NoEveningThenMorning
    · intro sc st2 h1 _ hv
      exact noEM_insert_validated h1 (validate_imp_nmae hmem hv)
    · apply assign_shift_type_go_invariant rules date Shift.morning NoEveningThenMorning
      · intro sc st2 h1 _ hv
        exact noEM_insert_validated h1 (validate_imp_nmae hmem hv)
      · exact h

theorem noEM_runDays (rules : List RuleSpec)
    (hmem : RuleSpec.noMorningAfterEvening ∈ rules) (staffIds : List Nat) (start : Int) :
    ∀ n, NoEveningThenMorning (runDays rules staffIds start n) := by
  intro n
  induction n with
  | zero =>
    rw [runDays_zero]
    intro st d
    rintro ⟨h1, _⟩
    exact absurd h1 (by simp [schedGet])
  | succ n ih =>
    rw [runDays_succ]
    exact noEM_day rules hmem _ staffIds _ ih

/-- C4: in every schedule a successful run with the default rule set
    produces, no staff member has an EVENING shift on a day directly
    followed by a MORNING shift on the next day — the last-resort fallback
    branch only ever records a DAY_OFF, so it cannot break this. -/
theorem C4_no_morning_after_evening (mn mx dl : Nat) (staffIds : List Nat) (start : Int)
    (jobId : Nat) (out : List OutRow)
    (h : generate_schedule (defaultRules mn mx dl) staffIds start jobId = Except.ok out) :
    ∀ r1 ∈ out, ∀ r2 ∈ out, r1.staffId = r2.staffId → r2.date = r1.date + 1 →
      ¬(r1.shift = Shift.evening ∧ r2.shift = Shift.morning) := by
  unfold generate_schedule at h
  by_cases hmon : weekdayFromMonday start ≠ 0
  · rw [if_pos hmon] at h
    exact absurd h (by simp)
  · rw [if_neg hmon] at h
    by_cases hemp : staffIds.isEmpty = true
    · rw [if_pos hemp] at h
      exact absurd h (by simp)
    · rw [if_neg hemp] at h
      have hout : out = ((runDays (defaultRules mn mx dl) staffIds start 28).map
          (fun e => OutRow.mk jobId e.1 e.2.1 e.2.2)).mergeSort outLE :=
        (Except.ok.inj h).symm
      subst hout
      intro r1 hr1 r2 hr2 hst hd hconj
      obtain ⟨hsh1, hsh2⟩ := hconj
      rw [List.mem_mergeSort] at hr1 hr2
      obtain ⟨e1, he1, hf1⟩ := List.mem_map.mp hr1
      obtain ⟨e2, he2, hf2⟩ := List.mem_map.mp hr2
      have hwf := runDays_wf (defaultRules mn mx dl) staffIds start 28
      have hnem := noEM_runDays (defaultRules mn mx dl) (by simp [defaultRules])
        staffIds start 28
      have he1m : (r1.staffId, r1.date, r1.shift) ∈
          runDays (defaultRules mn mx dl) staffIds start 28 := by
        have : e1 = (r1.staffId, r1.date, r1.shift) := by
          obtain ⟨a, b, c⟩ := e1
          rw [← hf1]
        exact this ▸ he1
      have he2m : (r2.staffId, r2.date, r2.shift) ∈
          runDays (defaultRules mn mx dl) staffIds start 28 := by
        have : e2 = (r2.staffId, r2.date, r2.shift) := by
          obtain ⟨a, b, c⟩ := e2
          rw [← hf2]
        exact this ▸ he2
      have hg1 : schedGet (runDays (defaultRules mn mx dl) staffIds start 28)
          r1.staffId r1.date = some Shift.evening := by
        rw [← hsh1]
        exact schedGet_eq_some_of_mem hwf he1m
      have hg2 : schedGet (runDays (defaultRules mn mx dl) staffIds start 28)
          r1.staffId (r1.date + 1) = some Shift.morning := by
        rw [← hsh2, hst, ← hd]
        exact schedGet_eq_some_of_mem hwf he2m
      exact hnem r1.staffId r1.date ⟨hg1, hg2⟩

/-- Witness for C4 on a concrete successful run. -/
theorem C4_witness :
    ∃ out, generate_schedule (defaultRules 1 3 1) [5] 0 9 = Except.ok out ∧
      (∀ r1 ∈ out, ∀ r2 ∈ out, r1.staffId = r2.staffId → r2.date = r1.date + 1 →
        ¬(r1.shift = Shift.evening ∧ r2.shift = Shift.morning)) := by
  obtain ⟨out, hout, _⟩ :=
    generate_schedule_spec (defaultRules 1 3 1) [5] 0 9 (by decide) (by simp)
  exact ⟨out, hout, C4_no_morning_after_evening 1 3 1 [5] 0 9 out hout⟩

/-- The child edge of the group forest: y is a group whose parent_id is x. -/
def childRel (groups : List GroupRow) (x y : Nat) : Prop :=
  ∃ g ∈ groups, g.id = y ∧ g.parentId = some x

theorem cteIter_mono (groups : List GroupRow) :
    ∀ (fuel : Nat) (s : List Nat) (x : Nat), x ∈ s → x ∈ cteIter groups fuel s := by
  intro fuel
  induction fuel with
  | zero =>
    intro s x hx
    exact hx
  | succ fuel ih =>
    intro s x hx
    rw [cteIter]
    by_cases hnews : cteNew groups s = []
    · rw [if_pos hnews]
      exact hx
    · rw [if_neg hnews]
      exact ih _ x (List.mem_append.mpr (Or.inl hx))

theorem cteIter_sound (groups : List GroupRow) (root : Nat) :
    ∀ (fuel : Nat) (s : List Nat),
      (∀ x ∈ s, Relation.ReflTransGen (childRel groups) root x) →
      ∀ x ∈ cteIter groups fuel s, Relation.ReflTransGen (childRel groups) root x := by
  intro fuel
  induction fuel with
  | zero =>
    intro s hs x hx
    exact hs x hx
  | succ fuel ih =>
    intro s hs x hx
    rw [cteIter] at hx
    by_cases hnews : cteNew groups s = []
    · rw [if_pos hnews] at hx
      exact hs x hx
    · rw [if_neg hnews] at hx
      refine ih _ ?_ x hx
      intro y hy
      rcases List.mem_append.mp hy with h1 | h1
      · exact hs y h1
      · unfold cteNew at h1
        rw [List.mem_dedup] at h1
        obtain ⟨g, hg, hgid⟩ := List.mem_map.mp h1
        have hgf := List.of_mem_filter hg
        rw [Bool.and_eq_true] at hgf
        have hgmem := List.mem_of_mem_filter hg
        unfold parentInSet at hgf
        cases hp : g.parentId with
        | none =>
          rw [hp] at hgf
          exact absurd hgf.1 (by simp)
        | some p =>
          rw [hp] at hgf
          have hpmem : p ∈ s := by
            have := hgf.1
            rwa [decide_eq_true_iff] at this
          exact Relation.ReflTransGen.tail (hs p hpmem) ⟨g, hgmem, hgid, hp⟩

theorem cteNew_nodup (groups : List GroupRow) (s : List Nat) : (cteNew groups s).Nodup :=
  List.nodup_dedup _

theorem cteNew_disjoint (groups : List GroupRow) (s : List Nat) :
    ∀ x ∈ cteNew groups s, x ∉ s := by
  intro x hx
  unfold cteNew at hx
  rw [List.mem_dedup] at hx
  obtain ⟨g, hg, hgid⟩ := List.mem_map.mp hx
  have hgf := List.of_mem_filter hg
  rw [Bool.and_eq_true] at hgf
  have := hgf.2
  rw [decide_eq_true_iff] at this
  exact hgid ▸ this

theorem cteNew_subset_ids (groups : List GroupRow) (s : List Nat) :
    ∀ x ∈ cteNew groups s, x ∈ groups.map (fun g => g.id) := by
  intro x hx
  unfold cteNew at hx
  rw [List.mem_dedup] at hx
  obtain ⟨g, hg, hgid⟩ := List.mem_map.mp hx
  exact List.mem_map.mpr ⟨g, List.mem_of_mem_filter hg, hgid⟩

/-- With enough fuel the iteration saturates: no new row can be added to
    the result. -/
theorem cteIter_saturated (groups : List GroupRow) :
    ∀ (fuel : Nat) (s : List Nat), s.Nodup →
      (∀ x ∈ s, x ∈ groups.map (fun g => g.id)) →
      (groups.map (fun g => g.id)).length ≤ fuel + s.length →
      cteNew groups (cteIter groups fuel s) = [] := by
  intro fuel
  induction fuel with
  | zero =>
    intro s hnd hsub hlen
    have hall : ∀ x ∈ groups.map (fun g => g.id), x ∈ s := by
      intro x hx
      have hsp : s.Subperm (groups.map (fun g => g.id)) :=
        List.subperm_of_subset hnd (fun y hy => hsub y hy)
      have hperm := hsp.perm_of_length_le (by omega)
      exact hperm.symm.subset hx
    rw [cteIter]
    unfold cteNew
    rw [List.dedup_eq_nil, List.map_eq_nil_iff, List.filter_eq_nil_iff]
    intro g hg
    rw [Bool.and_eq_true]
    rintro ⟨_, habs⟩
    rw [decide_eq_true_iff] at habs
    exact habs (hall g.id (List.mem_map.mpr ⟨g, hg, rfl⟩))
  | succ fuel ih =>
    intro s hnd hsub hlen
    rw [cteIter]
    by_cases hnews : cteNew groups s = []
    · rw [if_pos hnews]
      exact hnews
    · rw [if_neg hnews]
      refine ih (s ++ cteNew groups s) ?_ ?_ ?_
      · rw [List.nodup_append]
        exact ⟨hnd, cteNew_nodup groups s,
          fun x hx hx2 => cteNew_disjoint groups s x hx2 hx⟩
      · intro x hx
        rcases List.mem_append.mp hx with h1 | h1
        · exact hsub x h1
        · exact cteNew_subset_ids groups s x h1
      · rw [List.length_append]
        have hpos : 0 < (cteNew groups s).length := List.length_pos.mpr hnews
        omega

/-- A saturated set is closed under the child step. -/
theorem cteNew_nil_closed {groups : List GroupRow} {s : List Nat}
    (hclosed : cteNew groups s = []) :
    ∀ g ∈ groups, ∀ p, g.parentId = some p → p ∈ s → g.id ∈ s := by
  intro g hg p hp hps
  unfold cteNew at hclosed
  rw [List.dedup_eq_nil, List.map_eq_nil_iff, List.filter_eq_nil_iff] at hclosed
  have := hclosed g hg
  rw [Bool.and_eq_true] at this
  by_contra hnotin
  apply this
  constructor
  · unfold parentInSet
    rw [hp, decide_eq_true_iff]
    exact hps
  · rw [decide_eq_true_iff]
    exact hnotin

/-- Correctness of the recursive CTE: membership in the computed descendant
    set is reachability from the root along parent_id edges. -/
theorem descendants_cte_iff (db : DataDb) (root : Nat)
    (hroot : root ∈ db.groups.map (fun g => g.id)) :
    ∀ x, x ∈ descendants_cte db root ↔
      Relation.ReflTransGen (childRel db.groups) root x := by
  have hbase : ∀ y, y ∈ ((db.groups.filter (fun g => g.id == root)).map
      (fun g => g.id)).dedup ↔ y = root := by
    intro y
    rw [List.mem_dedup]
    constructor
    · intro hy
      obtain ⟨g, hg, hgid⟩ := List.mem_map.mp hy
      have := List.of_mem_filter hg
      rw [beq_iff_eq] at this
      rw [← hgid, this]
    · intro hy
      subst hy
      obtain ⟨g, hg, hgid⟩ := List.mem_map.mp hroot
      exact List.mem_map.mpr ⟨g, List.mem_filter.mpr ⟨hg, by rw [beq_iff_eq, hgid]⟩, hgid⟩
  intro x
  constructor
  · intro hx
    refine cteIter_sound db.groups root db.groups.length _ ?_ x hx
    intro y hy
    rw [hbase y] at hy
    subst hy
    exact Relation.ReflTransGen.refl
  · intro hreach
    have hsat : cteNew db.groups (descendants_cte db root) = [] := by
      refine cteIter_saturated db.groups db.groups.length _ (List.nodup_dedup _) ?_ ?_
      · intro y hy
        rw [hbase y] at hy
        subst hy
        exact hroot
      · rw [List.length_map]
        omega
    have hclosed := cteNew_nil_closed hsat
    have hrootin : root ∈ descendants_cte db root :=
      cteIter_mono db.groups db.groups.length _ root ((hbase root).mpr rfl)
    clear hbase hsat
    induction hreach with
    | refl => exact hrootin
    | tail hab hbc ih =>
      obtain ⟨g, hg, hgid, hgp⟩ := hbc
      exact hgid ▸ hclosed g hg _ hgp ih

/-- Membership characterization of the three-way join. -/
theorem mem_joinRows (db : DataDb) (ids : List Nat) (r : ResolvedRow) :
    r ∈ joinRows db ids ↔
      (r.group ∈ db.groups ∧ r.group.id ∈ ids ∧ r.staff ∈ db.staff ∧
        r.staff.active = true ∧
        ∃ m ∈ db.memberships, m.groupId = r.group.id ∧ m.staffId = r.staff.id) := by
  unfold joinRows
  rw [List.mem_flatMap]
  constructor
  · rintro ⟨d, hd, hr⟩
    rw [List.mem_flatMap] at hr
    obtain ⟨sg, hsg, hr⟩ := hr
    rw [List.mem_flatMap] at hr
    obtain ⟨gm, hgm, hr⟩ := hr
    obtain ⟨s, hs, hmk⟩ := List.mem_map.mp hr
    have hsgf := List.of_mem_filter hsg
    rw [beq_iff_eq] at hsgf
    have hsgm := List.mem_of_mem_filter hsg
    have hgmf := List.of_mem_filter hgm
    rw [beq_iff_eq] at hgmf
    have hgmm := List.mem_of_mem_filter hgm
    have hsf := List.of_mem_filter hs
    rw [Bool.and_eq_true, beq_iff_eq] at hsf
    have hsm := List.mem_of_mem_filter hs
    subst hmk
    exact ⟨hsgm, by rw [show (ResolvedRow.mk sg s).group = sg from rfl, hsgf]; exact hd,
      hsm, hsf.2, gm, hgmm, hgmf, hsf.1.symm⟩
  · rintro ⟨hg, hid, hs, hact, m, hm, hmg, hms⟩
    refine ⟨r.group.id, hid, ?_⟩
    rw [List.mem_flatMap]
    refine ⟨r.group, List.mem_filter.mpr ⟨hg, by rw [beq_iff_eq]⟩, ?_⟩
    rw [List.mem_flatMap]
    refine ⟨m, List.mem_filter.mpr ⟨hm, by rw [beq_iff_eq]; exact hmg⟩, ?_⟩
    refine List.mem_map.mpr ⟨r.staff, List.mem_filter.mpr ⟨hs, ?_⟩, ?_⟩
    · rw [Bool.and_eq_true, beq_iff_eq]
      exact ⟨hms.symm, hact⟩
    · obtain ⟨rg, rs⟩ := r
      rfl

theorem resolvedRowLE_trans (a b c : ResolvedRow) (h1 : resolvedRowLE a b = true)
    (h2 : resolvedRowLE b c = true) : resolvedRowLE a c = true := by
  unfold resolvedRowLE at h1 h2 ⊢
  rw [decide_eq_true_iff] at h1 h2 ⊢
  rcases h1 with h1 | ⟨h1, h1b⟩ <;> rcases h2 with h2 | ⟨h2, h2b⟩
  · exact Or.inl (lt_trans h1 h2)
  · exact Or.inl (h2 ▸ h1)
  · exact Or.inl (h1 ▸ h2)
  · exact Or.inr ⟨h1.trans h2, le_trans h1b h2b⟩

theorem resolvedRowLE_total (a b : ResolvedRow) :
    (resolvedRowLE a b || resolvedRowLE b a) = true := by
  unfold resolvedRowLE
  rw [Bool.or_eq_true, decide_eq_true_iff, decide_eq_true_iff]
  rcases lt_trichotomy a.group.name b.group.name with h | h | h
  · exact Or.inl (Or.inl h)
  · rcases le_total a.staff.name b.staff.name with h2 | h2
    · exact Or.inl (Or.inr ⟨h, h2⟩)
    · exact Or.inr (Or.inr ⟨h.symm, h2⟩)
  · exact Or.inr (Or.inl h)

theorem resolvedRowLE_name_le {a b : ResolvedRow} (h : resolvedRowLE a b = true) :
    a.group.name ≤ b.group.name := by
  unfold resolvedRowLE at h
  rw [decide_eq_true_iff] at h
  rcases h with h | ⟨h, _⟩
  · exact le_of_lt h
  · exact le_of_eq h

theorem resolvedRowLE_staff_le {a b : ResolvedRow} (h : resolvedRowLE a b = true)
    (hname : a.group.name = b.group.name) : a.staff.name ≤ b.staff.name := by
  unfold resolvedRowLE at h
  rw [decide_eq_true_iff] at h
  rcases h with h | ⟨_, h⟩
  · exact absurd h (by rw [hname]; exact lt_irrefl _)
  · exact h

theorem dedupAdjacent_spec :
    ∀ l : List Nat, l.Pairwise (fun a b => a ≤ b) →
      (dedupAdjacent l).Nodup ∧ ∀ x, x ∈ dedupAdjacent l ↔ x ∈ l := by
  intro l
  induction l using dedupAdjacent.induct with
  | case1 =>
    intro _
    simp [dedupAdjacent]
  | case2 a =>
    intro _
    simp [dedupAdjacent]
  | case3 a b rest hab ih =>
    intro hp
    rw [beq_iff_eq] at hab
    subst hab
    obtain ⟨hnd, hmem⟩ := ih (List.pairwise_cons.mp hp).2
    rw [dedupAdjacent, if_pos (by rw [beq_iff_eq])]
    refine ⟨hnd, fun x => ?_⟩
    rw [hmem x]
    simp only [List.mem_cons]
    constructor
    · intro h
      exact Or.inr h
    · rintro (h | h)
      · exact Or.inl h
      · exact h
  | case4 a b rest hab ih =>
    intro hp
    have hp2 := (List.pairwise_cons.mp hp).2
    have hrel := (List.pairwise_cons.mp hp).1
    obtain ⟨hnd, hmem⟩ := ih hp2
    rw [dedupAdjacent, if_neg (by rw [beq_iff_eq] at hab ⊢; exact hab)]
    rw [beq_iff_eq] at hab
    constructor
    · rw [List.nodup_cons]
      refine ⟨?_, hnd⟩
      intro hmem2
      rw [hmem a] at hmem2
      have hab2 : a ≤ b := hrel b (List.mem_cons_self b rest)
      rcases List.mem_cons.mp hmem2 with h | h
      · exact hab h
      · have hba : b ≤ a := (List.pairwise_cons.mp hp2).1 a h
        exact hab (le_antisymm hab2 hba)
    · intro x
      simp only [List.mem_cons, hmem x]

theorem unique_count_eq_card (rows : List ResolvedRow) :
    unique_count rows = ((rows.map (fun r => r.staff.id)).toFinset).card := by
  unfold unique_count
  have htrans : ∀ a b c : Nat, (decide (a ≤ b)) = true → (decide (b ≤ c)) = true →
      (decide (a ≤ c)) = true := by
    intro a b c h1 h2
    rw [decide_eq_true_iff] at h1 h2 ⊢
    omega
  have htotal : ∀ a b : Nat, ((decide (a ≤ b)) || (decide (b ≤ a))) = true := by
    intro a b
    rw [Bool.or_eq_true, decide_eq_true_iff, decide_eq_true_iff]
    omega
  have hsorted : ((rows.map (fun r => r.staff.id)).mergeSort
      (fun a b => decide (a ≤ b))).Pairwise (fun a b : Nat => a ≤ b) := by
    have := List.sorted_mergeSort htrans htotal (rows.map (fun r => r.staff.id))
    exact this.imp (fun h => by rwa [decide_eq_true_iff] at h)
  obtain ⟨hnd, hmem⟩ := dedupAdjacent_spec _ hsorted
  have hfs : (dedupAdjacent ((rows.map (fun r => r.staff.id)).mergeSort
      (fun a b => decide (a ≤ b)))).toFinset = (rows.map (fun r => r.staff.id)).toFinset := by
    ext x
    rw [List.mem_toFinset, List.mem_toFinset, hmem x, List.mem_mergeSort]
  rw [← List.toFinset_card_of_nodup hnd, hfs]

/-- In a well-formed database, a group id determines the group row and its
    name, and group ids and names identify each other. -/
theorem group_det (db : DataDb) (hgids : (db.groups.map (fun g => g.id)).Nodup)
    (hgnames : (db.groups.map (fun g => g.name)).Nodup) :
    ∀ g1 ∈ db.groups, ∀ g2 ∈ db.groups,
      (g1.id = g2.id ↔ g1.name = g2.name) ∧ (g1.id = g2.id → g1 = g2) := by
  intro g1 h1 g2 h2
  have hid : g1.id = g2.id → g1 = g2 := by
    intro h
    exact List.inj_on_of_nodup_map hgids h1 h2 h
  have hname : g1.name = g2.name → g1 = g2 := by
    intro h
    exact List.inj_on_of_nodup_map hgnames h1 h2 h
  constructor
  · constructor
    · intro h
      rw [hid h]
    · intro h
      rw [hname h]
  · exact hid

/-- Full specification of the streaming grouping pass on a sorted row list
    whose group records are determined by their ids and names: the emitted
    groups are exactly those of the rows, their names are strictly
    ascending, members are sorted by name and nonempty, and the emitted
    staff are exactly those of the rows. -/
theorem buildGroupsGo_spec :
    ∀ (rows : List ResolvedRow) (cur : GroupWithMembers),
      rows.Pairwise (fun a b => resolvedRowLE a b = true) →
      (∀ r ∈ rows, (r.group.id = cur.group.id ↔ r.group.name = cur.group.name) ∧
        (r.group.id = cur.group.id → r.group = cur.group)) →
      (∀ r1 ∈ rows, ∀ r2 ∈ rows,
        (r1.group.id = r2.group.id ↔ r1.group.name = r2.group.name) ∧
        (r1.group.id = r2.group.id → r1.group = r2.group)) →
      (∀ r ∈ rows, cur.group.name ≤ r.group.name) →
      (cur.members.map (fun s => s.name)).Pairwise (fun a b => a ≤ b) →
      (∀ r ∈ rows, r.group.id = cur.group.id → ∀ s ∈ cur.members, s.name ≤ r.staff.name) →
      cur.members ≠ [] →
      (∀ g, (∃ e ∈ buildGroupsGo cur rows, e.group = g) ↔
        (g = cur.group ∨ ∃ r ∈ rows, r.group = g)) ∧
      ((buildGroupsGo cur rows).map (fun e => e.group.name)).Pairwise (fun a b => a < b) ∧
      (∀ e ∈ buildGroupsGo cur rows,
        (e.members.map (fun s => s.name)).Pairwise (fun a b => a ≤ b) ∧ e.members ≠ []) ∧
      (∀ s, (∃ e ∈ buildGroupsGo cur rows, s ∈ e.members) ↔
        (s ∈ cur.members ∨ ∃ r ∈ rows, r.staff = s)) := by
  intro rows
  induction rows with
  | nil =>
    intro cur _ _ _ _ hcsorted _ hne
    rw [buildGroupsGo]
    refine ⟨?_, by simp, ?_, ?_⟩
    · intro g
      simp only [List.mem_singleton]
      constructor
      · rintro ⟨e, he, heg⟩
        subst he
        exact Or.inl heg.symm
      · rintro (h | ⟨r, hr, _⟩)
        · exact ⟨cur, rfl, h.symm⟩
        · simp at hr
    · intro e he
      rw [List.mem_singleton] at he
      subst he
      exact ⟨hcsorted, hne⟩
    · intro s
      simp only [List.mem_singleton]
      constructor
      · rintro ⟨e, he, hs⟩
        subst he
        exact Or.inl hs
      · rintro (h | ⟨r, hr, _⟩)
        · exact ⟨cur, rfl, h⟩
        · simp at hr
  | cons row rest ih =>
    intro cur hp hdetc hdetp hnamele hcsorted hbelow hne
    have hp2 := (List.pairwise_cons.mp hp).2
    have hrowrel := (List.pairwise_cons.mp hp).1
    rw [buildGroupsGo]
    by_cases hid : (row.group.id == cur.group.id) = true
    · rw [if_pos hid]
      rw [beq_iff_eq] at hid
      have hroweq : row.group = cur.group :=
        (hdetc row (List.mem_cons_self row rest)).2 hid
      obtain ⟨ha, hb, hc, hd⟩ := ih { cur with members := cur.members ++ [row.staff] }
        hp2
        (fun r hr => hdetc r (List.mem_cons_of_mem row hr))
        (fun r1 h1 r2 h2 => hdetp r1 (List.mem_cons_of_mem row h1)
          r2 (List.mem_cons_of_mem row h2))
        (fun r hr => hnamele r (List.mem_cons_of_mem row hr))
        (by
          rw [List.map_append, List.pairwise_append]
          refine ⟨hcsorted, by simp, ?_⟩
          intro a hamem b hbmem
          rw [List.mem_map] at hamem
          obtain ⟨s, hs, hsa⟩ := hamem
          rw [List.map_cons, List.map_nil, List.mem_singleton] at hbmem
          rw [← hsa, hbmem]
          exact hbelow row (List.mem_cons_self row rest) hid s hs)
        (by
          intro r hr hrid s hs
          rw [List.mem_append, List.mem_singleton] at hs
          rcases hs with hs | hs
          · exact hbelow r (List.mem_cons_of_mem row hr) hrid s hs
          · subst hs
            have hnames : row.group.name = r.group.name := by
              have hidr : row.group.id = r.group.id := by rw [hid, hrid]
              exact (hdetp row (List.mem_cons_self row rest)
                r (List.mem_cons_of_mem row hr)).1.mp hidr
            exact resolvedRowLE_staff_le (hrowrel r hr) hnames)
        (by simp)
      refine ⟨?_, hb, hc, ?_⟩
      · intro g
        rw [ha g]
        constructor
        · rintro (h | ⟨r, hr, hrg⟩)
          · exact Or.inl h
          · exact Or.inr ⟨r, List.mem_cons_of_mem row hr, hrg⟩
        · rintro (h | ⟨r, hr, hrg⟩)
          · exact Or.inl h
          · rcases List.mem_cons.mp hr with h2 | h2
            · subst h2
              exact Or.inl (by rw [← hrg, hroweq])
            · exact Or.inr ⟨r, h2, hrg⟩
      · intro s
        rw [hd s]
        simp only [List.mem_append, List.mem_singleton]
        constructor
        · rintro ((h | h) | ⟨r, hr, hrs⟩)
          · exact Or.inl h
          · exact Or.inr ⟨row, List.mem_cons_self row rest, h.symm⟩
          · exact Or.inr ⟨r, List.mem_cons_of_mem row hr, hrs⟩
        · rintro (h | ⟨r, hr, hrs⟩)
          · exact Or.inl (Or.inl h)
          · rcases List.mem_cons.mp hr with h2 | h2
            · subst h2
              exact Or.inl (Or.inr hrs.symm)
            · exact Or.inr ⟨r, h2, hrs⟩
    · rw [if_neg hid]
      have hidne : row.group.id ≠ cur.group.id := by
        intro h
        exact hid (by rw [beq_iff_eq]; exact h)
      have hnamene : row.group.name ≠ cur.group.name := by
        intro h
        exact hidne ((hdetc row (List.mem_cons_self row rest)).1.mpr h)
      have hcurlt : cur.group.name < row.group.name :=
        lt_of_le_of_ne (hnamele row (List.mem_cons_self row rest))
          (fun h => hnamene h.symm)
      obtain ⟨ha, hb, hc, hd⟩ := ih ⟨row.group, [row.staff]⟩
        hp2
        (fun r hr => hdetp r (List.mem_cons_of_mem row hr)
          row (List.mem_cons_self row rest))
        (fun r1 h1 r2 h2 => hdetp r1 (List.mem_cons_of_mem row h1)
          r2 (List.mem_cons_of_mem row h2))
        (fun r hr => resolvedRowLE_name_le (hrowrel r hr))
        (by simp)
        (by
          intro r hr hrid s hs
          rw [List.mem_singleton] at hs
          subst hs
          have hnames : row.group.name = r.group.name :=
            (hdetp row (List.mem_cons_self row rest)
              r (List.mem_cons_of_mem row hr)).1.mp hrid.symm
          exact resolvedRowLE_staff_le (hrowrel r hr) hnames)
        (by simp)
      refine ⟨?_, ?_, ?_, ?_⟩
      · intro g
        simp only [List.mem_cons]
        constructor
        · rintro ⟨e, he, heg⟩
          rcases he with he | he
          · subst he
            exact Or.inl heg.symm
          · rcases (ha g).mp ⟨e, he, heg⟩ with h | ⟨r, hr, hrg⟩
            · exact Or.inr ⟨row, Or.inl rfl, h.symm⟩
            · exact Or.inr ⟨r, Or.inr hr, hrg⟩
        · rintro (h | ⟨r, hr, hrg⟩)
          · exact ⟨cur, Or.inl rfl, h.symm⟩
          · rcases hr with hr | hr
            · subst hr
              obtain ⟨e, he, heg⟩ := (ha g).mpr (Or.inl hrg.symm)
              exact ⟨e, Or.inr he, heg⟩
            · obtain ⟨e, he, heg⟩ := (ha g).mpr (Or.inr ⟨r, hr, hrg⟩)
              exact ⟨e, Or.inr he, heg⟩
      · rw [List.map_cons, List.pairwise_cons]
        refine ⟨?_, hb⟩
        intro nm hnm
        rw [List.mem_map] at hnm
        obtain ⟨e, he, hnme⟩ := hnm
        rcases (ha e.group).mp ⟨e, he, rfl⟩ with h | ⟨r, hr, hrg⟩
        · rw [← hnme, h]
          exact hcurlt
        · rw [← hnme, ← hrg]
          exact lt_of_lt_of_le hcurlt (resolvedRowLE_name_le (hrowrel r hr))
      · intro e he
        rcases List.mem_cons.mp he with h | h
        · subst h
          exact ⟨hcsorted, hne⟩
        · exact hc e h
      · intro s
        simp only [List.mem_cons]
        constructor
        · rintro ⟨e, he, hs⟩
          rcases he with he | he
          · subst he
            exact Or.inl hs
          · rcases (hd s).mp ⟨e, he, hs⟩ with h | ⟨r, hr, hrs⟩
            · rw [List.mem_singleton] at h
              exact Or.inr ⟨row, Or.inl rfl, h.symm⟩
            · exact Or.inr ⟨r, Or.inr hr, hrs⟩
        · rintro (h | ⟨r, hr, hrs⟩)
          · exact ⟨cur, Or.inl rfl, h⟩
          · rcases hr with hr | hr
            · subst hr
              obtain ⟨e, he, hs⟩ := (hd s).mpr (Or.inl (by
                rw [List.mem_singleton]
                exact hrs.symm))
              exact ⟨e, Or.inr he, hs⟩
            · obtain ⟨e, he, hs⟩ := (hd s).mpr (Or.inr ⟨r, hr, hrs⟩)
              exact ⟨e, Or.inr he, hs⟩

theorem buildGroups_spec (rows : List ResolvedRow)
    (hp : rows.Pairwise (fun a b => resolvedRowLE a b = true))
    (hdetp : ∀ r1 ∈ rows, ∀ r2 ∈ rows,
      (r1.group.id = r2.group.id ↔ r1.group.name = r2.group.name) ∧
      (r1.group.id = r2.group.id → r1.group = r2.group)) :
    (∀ g, (∃ e ∈ buildGroups rows, e.group = g) ↔ (∃ r ∈ rows, r.group = g)) ∧
    ((buildGroups rows).map (fun e => e.group.name)).Pairwise (fun a b => a < b) ∧
    (∀ e ∈ buildGroups rows,
      (e.members.map (fun s => s.name)).Pairwise (fun a b => a ≤ b) ∧ e.members ≠ []) ∧
    (∀ s, (∃ e ∈ buildGroups rows, s ∈ e.members) ↔ (∃ r ∈ rows, r.staff = s)) := by
  cases rows with
  | nil =>
    rw [buildGroups]
    refine ⟨?_, by simp, by simp, ?_⟩
    · intro g
      simp
    · intro s
      simp
  | cons row rest =>
    rw [buildGroups]
    have hp2 := (List.pairwise_cons.mp hp).2
    have hrowrel := (List.pairwise_cons.mp hp).1
    obtain ⟨ha, hb, hc, hd⟩ := buildGroupsGo_spec rest ⟨row.group, [row.staff]⟩ hp2
      (fun r hr => hdetp r (List.mem_cons_of_mem row hr) row (List.mem_cons_self row rest))
      (fun r1 h1 r2 h2 => hdetp r1 (List.mem_cons_of_mem row h1)
        r2 (List.mem_cons_of_mem row h2))
      (fun r hr => resolvedRowLE_name_le (hrowrel r hr))
      (by simp)
      (by
        intro r hr hrid s hs
        rw [List.mem_singleton] at hs
        subst hs
        have hnames : row.group.name = r.group.name :=
          (hdetp row (List.mem_cons_self row rest)
            r (List.mem_cons_of_mem row hr)).1.mp hrid.symm
        exact resolvedRowLE_staff_le (hrowrel r hr) hnames)
      (by simp)
    refine ⟨?_, hb, hc, ?_⟩
    · intro g
      rw [ha g]
      simp only [List.mem_cons]
      constructor
      · rintro (h | ⟨r, hr, hrg⟩)
        · exact ⟨row, Or.inl rfl, h.symm⟩
        · exact ⟨r, Or.inr hr, hrg⟩
      · rintro ⟨r, hr, hrg⟩
        rcases hr with hr | hr
        · subst hr
          exact Or.inl hrg.symm
        · exact Or.inr ⟨r, hr, hrg⟩
    · intro s
      rw [hd s]
      constructor
      · rintro (h | ⟨r, hr, hrs⟩)
        · have h2 : s = row.staff := by simpa using h
          exact ⟨row, List.mem_cons_self row rest, h2.symm⟩
        · exact ⟨r, List.mem_cons_of_mem row hr, hrs⟩
      · rintro ⟨r, hr, hrs⟩
        rcases List.mem_cons.mp hr with hr2 | hr2
        · subst hr2
          exact Or.inl (by simp [hrs.symm])
        · exact Or.inr ⟨r, hr2, hrs⟩

/-- C5: for an existing root group in a well-formed database (unique group
    ids and names), the resolved-membership query returns exactly the groups
    reachable from the root (root included) that have at least one ACTIVE
    direct member, in strictly ascending group-name order, with each group's
    members sorted by staff name ascending, and the returned total is the
    number of distinct staff ids across all emitted member lists. -/
theorem C5_resolved_members_query (db : DataDb) (root : Nat)
    (hgids : (db.groups.map (fun g => g.id)).Nodup)
    (hgnames : (db.groups.map (fun g => g.name)).Nodup)
    (hroot : root ∈ db.groups.map (fun g => g.id)) :
    (∀ g ∈ db.groups,
      (∃ e ∈ (get_resolved_members db root).1, e.group = g) ↔
        (Relation.ReflTransGen (childRel db.groups) root g.id ∧
          ∃ m ∈ db.memberships, m.groupId = g.id ∧
            ∃ s ∈ db.staff, s.id = m.staffId ∧ s.active = true)) ∧
    (((get_resolved_members db root).1.map (fun e => e.group.name)).Pairwise
      (fun a b => a < b)) ∧
    (∀ e ∈ (get_resolved_members db root).1,
      (e.members.map (fun s => s.name)).Pairwise (fun a b => a ≤ b)) ∧
    ((get_resolved_members db root).2 =
      (((get_resolved_members db root).1.flatMap
        (fun e => e.members.map (fun s => s.id))).toFinset).card) := by
  have h1 : (get_resolved_members db root).1 =
      buildGroups ((joinRows db (descendants_cte db root)).mergeSort resolvedRowLE) := rfl
  have h2 : (get_resolved_members db root).2 =
      unique_count ((joinRows db (descendants_cte db root)).mergeSort resolvedRowLE) := rfl
  have hsorted : ((joinRows db (descendants_cte db root)).mergeSort
      resolvedRowLE).Pairwise (fun a b => resolvedRowLE a b = true) :=
    List.sorted_mergeSort resolvedRowLE_trans resolvedRowLE_total _
  have hmemrows : ∀ r, r ∈ (joinRows db (descendants_cte db root)).mergeSort resolvedRowLE ↔
      r ∈ joinRows db (descendants_cte db root) := by
    intro r
    exact List.mem_mergeSort
  have hdetp : ∀ r1 ∈ (joinRows db (descendants_cte db root)).mergeSort resolvedRowLE,
      ∀ r2 ∈ (joinRows db (descendants_cte db root)).mergeSort resolvedRowLE,
      (r1.group.id = r2.group.id ↔ r1.group.name = r2.group.name) ∧
      (r1.group.id = r2.group.id → r1.group = r2.group) := by
    intro r1 hr1 r2 hr2
    rw [hmemrows] at hr1 hr2
    have hg1 := ((mem_joinRows db _ r1).mp hr1).1
    have hg2 := ((mem_joinRows db _ r2).mp hr2).1
    exact group_det db hgids hgnames r1.group hg1 r2.group hg2
  obtain ⟨ha, hb, hc, hd⟩ := buildGroups_spec _ hsorted hdetp
  have hcte := descendants_cte_iff db root hroot
  refine ⟨?_, by rw [h1]; exact hb, ?_, ?_⟩
  · intro g hg
    rw [h1, ha g]
    constructor
    · rintro ⟨r, hr, hrg⟩
      rw [hmemrows] at hr
      obtain ⟨hrgm, hrid, hrs, hract, m, hm, hmg, hms⟩ := (mem_joinRows db _ r).mp hr
      subst hrg
      exact ⟨(hcte r.group.id).mp hrid, m, hm, hmg, r.staff, hrs, hms.symm, hract⟩
    · rintro ⟨hreach, m, hm, hmg, s, hs, hsid, hact⟩
      refine ⟨⟨g, s⟩, ?_, rfl⟩
      rw [hmemrows, mem_joinRows]
      exact ⟨hg, (hcte g.id).mpr hreach, hs, hact, m, hm, hmg, hsid.symm⟩
  · intro e he
    rw [h1] at he
    exact (hc e he).1
  · rw [h1, h2, unique_count_eq_card]
    congr 1
    ext x
    simp only [List.mem_toFinset, List.mem_map, List.mem_flatMap]
    constructor
    · rintro ⟨r, hr, hrx⟩
      obtain ⟨e, he, hse⟩ := (hd r.staff).mpr ⟨r, hr, rfl⟩
      exact ⟨e, he, r.staff, hse, hrx⟩
    · rintro ⟨e, he, s, hs, hsx⟩
      obtain ⟨r, hr, hrs⟩ := (hd s).mp ⟨e, he, hs⟩
      exact ⟨r, hr, by rw [hrs]; exact hsx⟩

/-- A tiny well-formed database for the C5 witness: a root group, one child
    group holding one active staff member. -/
def db5 : DataDb :=
  ⟨[⟨1, "Root", none⟩, ⟨2, "ChildA", some 1⟩],
   [⟨10, "alice", true⟩],
   [⟨100, 10, 2⟩]⟩

/-- Witness for C5 on the concrete database. -/
theorem C5_witness :
    (∀ g ∈ db5.groups,
      (∃ e ∈ (get_resolved_members db5 1).1, e.group = g) ↔
        (Relation.ReflTransGen (childRel db5.groups) 1 g.id ∧
          ∃ m ∈ db5.memberships, m.groupId = g.id ∧
            ∃ s ∈ db5.staff, s.id = m.staffId ∧ s.active = true)) ∧
    (((get_resolved_members db5 1).1.map (fun e => e.group.name)).Pairwise
      (fun a b => a < b)) ∧
    (∀ e ∈ (get_resolved_members db5 1).1,
      (e.members.map (fun s => s.name)).Pairwise (fun a b => a ≤ b)) ∧
    ((get_resolved_members db5 1).2 =
      (((get_resolved_members db5 1).1.flatMap
        (fun e => e.members.map (fun s => s.id))).toFinset).card) :=
  C5_resolved_members_query db5 1 (by decide) (by decide) (by decide)
